import Mathlib

/-!
# CodeSnippetWidget: snippet store and code-generation client

A shallow embedding of `src/js/storage.js` (`CodeStorage`), of the non-DOM
part of `src/js/groq-api.js` (`GroqAPI`) and of the generation handlers of
`src/js/ui.js` (`CodeUI`), with the properties of the specification stated
and proved over it.

Modelling conventions
* A JavaScript string is a `List Char` (`JSString`): a sequence of Unicode
  scalar values.  Strings holding unpaired surrogates are outside the model.
* A function that may throw returns `Except JSError _`; `try`/`catch` is a
  `match` on that result.
* The browser objects the code calls (`localStorage`, `JSON`, `fetch`,
  `Date`) are modelled from the platform standards they implement and are
  kept apart from the functions translated from the source.
-/

namespace CodeSnippetWidget

/-! ## Strings -/

/-- A JavaScript string. -/
abbrev JSString := List Char

/-- The `WhiteSpace` and `LineTerminator` code points of ECMAScript: the set
removed by `String.prototype.trim` and matched by the regular-expression
class `\s`. -/
def isWhiteSpace (c : Char) : Bool :=
  let n := c.toNat
  n == 0x09 || n == 0x0A || n == 0x0B || n == 0x0C || n == 0x0D || n == 0x20 ||
  n == 0xA0 || n == 0x1680 || (0x2000 ≤ n && n ≤ 0x200A) ||
  n == 0x2028 || n == 0x2029 || n == 0x202F || n == 0x205F || n == 0x3000 ||
  n == 0xFEFF

/-- The regular-expression class `\w` (no `i`/`u` flag): `[A-Za-z0-9_]`. -/
def isWordChar (c : Char) : Bool :=
  let n := c.toNat
  (0x41 ≤ n && n ≤ 0x5A) || (0x61 ≤ n && n ≤ 0x7A) || (0x30 ≤ n && n ≤ 0x39) ||
  n == 0x5F

/-- The part of `String.prototype.trim` that removes leading white space. -/
def trimStart (s : JSString) : JSString := s.dropWhile isWhiteSpace

/-- The part of `String.prototype.trim` that removes trailing white space. -/
def trimEnd (s : JSString) : JSString := (s.reverse.dropWhile isWhiteSpace).reverse

/-- The method `String.prototype.trim`. -/
def trim (s : JSString) : JSString := trimEnd (trimStart s)

/-- Three backticks, the fence of a markdown code block. -/
def fence : JSString := ['\x60', '\x60', '\x60']

/-- A line feed followed by three backticks: the tail `\n§§§` of the pattern
(with § standing for a backtick). -/
def closingFence : JSString := '\n' :: fence

/-! ## The code-block pattern of `generateCodeSnippet`

`/§§§(?:\w+)?\n([\s\S]+?)\n§§§/` (§ a backtick), matched by backtracking in
the order ECMAScript prescribes. -/

/-- The lazy group `([\s\S]+?)` followed by `\n§§§`: the capture takes one
character, then as few more as possible, until the rest of the input starts
with the closing fence.  Returns the capture. -/
def lazyBody : JSString → Option JSString
  | [] => none
  | c :: cs =>
    if closingFence.isPrefixOf cs then some [c]
    else (lazyBody cs).map (c :: ·)

/-- What follows the opening fence: `\n([\s\S]+?)\n§§§` at the start of the
input. -/
def afterTag : JSString → Option JSString
  | '\n' :: cs => lazyBody cs
  | _ => none

/-- The greedy `\w+` followed by the rest of the pattern: at least one word
character is consumed, the longest run is tried first, and every shorter run
is tried after it fails. -/
def wordsThen : JSString → Option JSString
  | [] => none
  | c :: cs =>
    if isWordChar c then
      match wordsThen cs with
      | some m => some m
      | none => afterTag cs
    else none

/-- The optional group `(?:\w+)?` followed by the rest of the pattern: the
group is tried first, and skipped when no way of matching it succeeds. -/
def tagThen (s : JSString) : Option JSString :=
  match wordsThen s with
  | some m => some m
  | none => afterTag s

/-- The whole pattern anchored at the start of the input; the result is
capture group 1. -/
def matchHere : JSString → Option JSString
  | '\x60' :: '\x60' :: '\x60' :: cs => tagThen cs
  | _ => none

/-- The value `match[1]` of `content.match(codeBlockRegex)`: start positions
are tried from left to right and the first one that matches wins; `none` when
`match` is `null`. -/
def codeBlockMatch : JSString → Option JSString
  | [] => none
  | c :: cs =>
    match matchHere (c :: cs) with
    | some m => some m
    | none => codeBlockMatch cs

/-- The extraction step of `generateCodeSnippet` (groq-api.js lines 96-108),
applied to the string `data.choices[0].message.content`. -/
def extractCode (raw : JSString) : JSString :=
  let content := trim raw
  match codeBlockMatch content with
  | some m => if m ≠ [] then trim m else content
  | none => content

/-! ## Values and exceptions -/

/-- The exceptions the modelled code can meet. -/
inductive JSError where
  /-- An `Error` object created by `new Error(message)`. -/
  | error (message : JSString)
  /-- A `TypeError`, e.g. reading a property of `null` or `undefined`. -/
  | typeError
  /-- A `SyntaxError`, raised by `JSON.parse` and by `response.json()`. -/
  | syntaxError
  /-- An exception raised by the host, carrying its name (for instance
  `QuotaExceededError`, `SecurityError`). -/
  | host (name : JSString)
  deriving DecidableEq

/-- The JavaScript values that occur: `undefined` and what `JSON.parse` can
produce.  A Number is held as a JSON numeral denoting it; an object is its own
properties in creation order (the code never enumerates an object, so the
place JavaScript gives to integer-like keys plays no part). -/
inductive JSVal where
  | undefined
  | null
  | bool (b : Bool)
  | num (numeral : JSString)
  | str (s : JSString)
  | arr (items : List JSVal)
  | obj (props : List (JSString × JSVal))

/-- The behaviour of Number values, which depends on IEEE-754 arithmetic and is
left to the platform: whether the Number denoted by a numeral is `0`, `-0` (or
`NaN`), and `Number::toString` of it. -/
structure NumberOps where
  isZero : JSString → Bool
  toString : JSString → JSString

/-- The abstract operation `ToBoolean`. -/
def truthy (N : NumberOps) : JSVal → Bool
  | .undefined => false
  | .null => false
  | .bool b => b
  | .num x => !N.isZero x
  | .str s => !s.isEmpty
  | .arr _ => true
  | .obj _ => true

mutual
/-- The abstract operation `ToString`, as applied by a template literal. -/
def toStr (N : NumberOps) : JSVal → JSString
  | .undefined => "undefined".toList
  | .null => "null".toList
  | .bool true => "true".toList
  | .bool false => "false".toList
  | .num x => N.toString x
  | .str s => s
  | .arr xs => joinItems N xs
  | .obj _ => "[object Object]".toList
/-- The steps of `Array.prototype.join` with separator `,`: `undefined` and
`null` elements contribute the empty string. -/
def joinItems (N : NumberOps) : List JSVal → JSString
  | [] => []
  | [x] => itemStr N x
  | x :: y :: rest => itemStr N x ++ ',' :: joinItems N (y :: rest)
/-- The string one array element contributes to `join`. -/
def itemStr (N : NumberOps) : JSVal → JSString
  | .undefined => []
  | .null => []
  | .bool true => "true".toList
  | .bool false => "false".toList
  | .num x => N.toString x
  | .str s => s
  | .arr xs => joinItems N xs
  | .obj _ => "[object Object]".toList
end

/-- Looks a key up among the own properties of an object. -/
def lookupProp (key : JSString) : List (JSString × JSVal) → JSVal
  | [] => .undefined
  | (k, v) :: rest => if k = key then v else lookupProp key rest

/-- The value of the decimal array index a property key spells, if it spells
one (`0`, or digits not starting with `0`). -/
def arrayIndex (key : JSString) : Option Nat :=
  if key = ['0'] then some 0
  else
    match key with
    | [] => none
    | c :: _ =>
      if c ≠ '0' ∧ key.all Char.isDigit then
        some (key.foldl (fun n d => 10 * n + (d.toNat - '0'.toNat)) 0)
      else none

/-- The decimal numeral of a natural number. -/
def natNumeral (n : Nat) : JSString := Nat.toDigits 10 n

/-- Property read `v.key` / `v[key]`: a `TypeError` on `undefined` and `null`;
own properties of objects; elements and `length` of arrays and strings;
`undefined` otherwise.  Keys naming properties inherited from the built-in
prototypes (methods) are outside the model; the source reads none. -/
def getProp (v : JSVal) (key : JSString) : Except JSError JSVal :=
  match v with
  | .undefined => .error .typeError
  | .null => .error .typeError
  | .bool _ => .ok .undefined
  | .num _ => .ok .undefined
  | .str s =>
    if key = "length".toList then .ok (.num (natNumeral s.length))
    else
      match arrayIndex key with
      | some i => .ok (match s.get? i with | some c => .str [c] | none => .undefined)
      | none => .ok .undefined
  | .arr xs =>
    if key = "length".toList then .ok (.num (natNumeral xs.length))
    else
      match arrayIndex key with
      | some i => .ok (match xs.get? i with | some x => x | none => .undefined)
      | none => .ok .undefined
  | .obj ps => .ok (lookupProp key ps)

/-- Optional chaining `v?.key`: `undefined` when `v` is `undefined` or `null`. -/
def getPropOpt (v : JSVal) (key : JSString) : Except JSError JSVal :=
  match v with
  | .undefined => .ok .undefined
  | .null => .ok .undefined
  | _ => getProp v key

/-! ## JSON (ECMA-404 / ECMAScript `JSON` object) -/

namespace JSON

/-- The lowercase hexadecimal digit of a number below 16. -/
def hexDigit (n : Nat) : Char :=
  if n < 10 then Char.ofNat (0x30 + n) else Char.ofNat (0x61 + (n - 10))

/-- The value of a hexadecimal digit of either case. -/
def hexValue (c : Char) : Option Nat :=
  let n := c.toNat
  if 0x30 ≤ n ∧ n ≤ 0x39 then some (n - 0x30)
  else if 0x61 ≤ n ∧ n ≤ 0x66 then some (n - 0x61 + 10)
  else if 0x41 ≤ n ∧ n ≤ 0x46 then some (n - 0x41 + 10)
  else none

/-- The text `QuoteJSONString` emits for one character. -/
def escapeChar (c : Char) : JSString :=
  if c = '"' then ['\\', '"']
  else if c = '\\' then ['\\', '\\']
  else if c = '\x08' then ['\\', 'b']
  else if c = '\x0c' then ['\\', 'f']
  else if c = '\n' then ['\\', 'n']
  else if c = '\r' then ['\\', 'r']
  else if c = '\t' then ['\\', 't']
  else if c.toNat < 0x20 then
    ['\\', 'u', '0', '0', hexDigit (c.toNat / 16), hexDigit (c.toNat % 16)]
  else [c]

/-- The characters of a string with every one escaped as `QuoteJSONString`
does. -/
def escape : JSString → JSString
  | [] => []
  | c :: cs => escapeChar c ++ escape cs

/-- The abstract operation `QuoteJSONString`. -/
def quote (s : JSString) : JSString := '"' :: (escape s ++ ['"'])

mutual
/-- The abstract operation `SerializeJSONProperty`: `none` stands for the
result `undefined`.  Numerals are emitted as held. -/
def serialize : JSVal → Option JSString
  | .undefined => none
  | .null => some "null".toList
  | .bool true => some "true".toList
  | .bool false => some "false".toList
  | .num x => some x
  | .str s => some (quote s)
  | .arr xs => some ('[' :: (serializeItems xs ++ [']']))
  | .obj ps => some ('\x7b' :: (serializeProps true ps ++ ['\x7d']))
/-- The elements of `SerializeJSONArray`, comma separated; an element that
serializes to `undefined` is written `null`. -/
def serializeItems : List JSVal → JSString
  | [] => []
  | [x] => (serialize x).getD "null".toList
  | x :: y :: rest => (serialize x).getD "null".toList ++ ',' :: serializeItems (y :: rest)
/-- The members of `SerializeJSONObject`, comma separated; a property whose
value serializes to `undefined` is left out.  The flag tells whether no member
has been written yet. -/
def serializeProps : Bool → List (JSString × JSVal) → JSString
  | _, [] => []
  | first, (k, v) :: rest =>
    match serialize v with
    | none => serializeProps first rest
    | some t =>
      (if first then [] else [',']) ++ quote k ++ ':' :: t ++ serializeProps false rest
end

/-- The function `JSON.stringify(v)` for a value that is not `undefined` at the top; the
result for `undefined` is the string `localStorage.setItem` and `fetch` would
make of it. -/
def stringify (v : JSVal) : JSString := (serialize v).getD "undefined".toList

/-- JSON white space: tab, line feed, carriage return, space. -/
def isWs (c : Char) : Bool := c = '\t' || c = '\n' || c = '\r' || c = ' '

/-- Drops leading JSON white space. -/
def skipWs (s : JSString) : JSString := s.dropWhile isWs

/-- The character a single-character escape `\e` denotes. -/
def unescape (e : Char) : Option Char :=
  if e = '"' then some '"'
  else if e = '\\' then some '\\'
  else if e = '/' then some '/'
  else if e = 'b' then some '\x08'
  else if e = 'f' then some '\x0c'
  else if e = 'n' then some '\n'
  else if e = 'r' then some '\r'
  else if e = 't' then some '\t'
  else none

/-- The code unit a `\uXXXX` escape names. -/
def hexCode (a b c d : Char) : Option Nat :=
  match hexValue a, hexValue b, hexValue c, hexValue d with
  | some w, some x, some y, some z => some (((w * 16 + x) * 16 + y) * 16 + z)
  | _, _, _, _ => none

/-- A code unit in the range of leading surrogates, U+D800 to U+DBFF. -/
def isLeadSurrogate (n : Nat) : Bool := 0xD800 ≤ n && n ≤ 0xDBFF

/-- A code unit in the range of trailing surrogates, U+DC00 to U+DFFF. -/
def isTrailSurrogate (n : Nat) : Bool := 0xDC00 ≤ n && n ≤ 0xDFFF

/-- The character a leading and a trailing surrogate code unit make together. -/
def pairChar (hi lo : Nat) : Char :=
  Char.ofNat (0x10000 + (hi - 0xD800) * 0x400 + (lo - 0xDC00))

/-- The character of a code unit that stands alone.  A surrogate without its
partner has no counterpart among `Char` and is read as U+FFFD. -/
def unitChar (n : Nat) : Char :=
  if n.isValidChar then Char.ofNat n else Char.ofNat 0xFFFD

/-- One item of the body of a JSON string: a character written out or by a
single-character escape, or the code unit a `\uXXXX` escape names. -/
inductive StringItem where
  | char (c : Char)
  | unit (n : Nat)

/-- Reads the items of a JSON string after its opening quote, and the input
after the closing quote. -/
def parseItems : JSString → Option (List StringItem × JSString)
  | [] => none
  | c :: rest =>
    if c = '"' then some ([], rest)
    else if c = '\\' then
      match rest with
      | [] => none
      | e :: rest1 =>
        if e = 'u' then
          match rest1 with
          | a :: b :: c1 :: d :: rest2 =>
            match hexCode a b c1 d with
            | some n => (parseItems rest2).map fun (x, r) => (.unit n :: x, r)
            | none => none
          | _ => none
        else
          match unescape e with
          | some ch => (parseItems rest1).map fun (x, r) => (.char ch :: x, r)
          | none => none
    else if c.toNat < 0x20 then none
    else (parseItems rest).map fun (x, r) => (.char c :: x, r)

/-- The string a list of items denotes: a leading surrogate followed at once
by a trailing one makes one character with it. -/
def decodeItems : List StringItem → JSString
  | [] => []
  | .char c :: rest => c :: decodeItems rest
  | [.unit n] => [unitChar n]
  | .unit n :: .char c :: rest => unitChar n :: c :: decodeItems rest
  | .unit n :: .unit m :: rest =>
    if isLeadSurrogate n ∧ isTrailSurrogate m then pairChar n m :: decodeItems rest
    else unitChar n :: decodeItems (.unit m :: rest)

/-- Reads the rest of a JSON string after its opening quote: the string
denoted and the input after the closing quote. -/
def parseStringBody (s : JSString) : Option (JSString × JSString) :=
  (parseItems s).map fun (x, r) => (decodeItems x, r)

/-- Splits off the leading decimal digits. -/
def spanDigits (s : JSString) : JSString × JSString := s.span Char.isDigit

/-- Reads a JSON number `-?(0|[1-9][0-9]*)(\.[0-9]+)?([eE][+-]?[0-9]+)?`: the
numeral and the input after it. -/
def parseNumber (s : JSString) : Option (JSString × JSString) :=
  let (sign, s1) := match s with
    | '-' :: r => (['-'], r)
    | _ => ([], s)
  let intPart : Option (JSString × JSString) := match s1 with
    | '0' :: r => some (['0'], r)
    | _ => let (ds, r) := spanDigits s1; if ds = [] then none else some (ds, r)
  match intPart with
  | none => none
  | some (ip, s2) =>
    let fracPart : Option (JSString × JSString) := match s2 with
      | '.' :: r =>
        let (ds, r1) := spanDigits r
        if ds = [] then none else some ('.' :: ds, r1)
      | _ => some ([], s2)
    match fracPart with
    | none => none
    | some (fp, s3) =>
      let expPart : Option (JSString × JSString) := match s3 with
        | e :: r =>
          if e = 'e' ∨ e = 'E' then
            let (sg, r1) := match r with
              | '+' :: r2 => (['+'], r2)
              | '-' :: r2 => (['-'], r2)
              | _ => ([], r)
            let (ds, r3) := spanDigits r1
            if ds = [] then none else some (e :: (sg ++ ds), r3)
          else some ([], s3)
        | [] => some ([], s3)
      match expPart with
      | none => none
      | some (ep, s4) => some (sign ++ ip ++ fp ++ ep, s4)

/-- Strips a literal from the front of the input. -/
def stripLiteral (lit s : JSString) : Option JSString :=
  if lit.isPrefixOf s then some (s.drop lit.length) else none

/-- The operation `CreateDataProperty` on an own-property list: a key already present keeps
its place and takes the new value, a new key goes last. -/
def setProp (ps : List (JSString × JSVal)) (k : JSString) (v : JSVal) :
    List (JSString × JSVal) :=
  if ps.any (fun p => p.1 = k) then ps.map (fun p => if p.1 = k then (k, v) else p)
  else ps ++ [(k, v)]

/-- The object holding the members of a JSON text in order; of two members
with one key the later value wins. -/
def mkObject (members : List (JSString × JSVal)) : JSVal :=
  .obj (members.foldl (fun ps m => setProp ps m.1 m.2) [])

mutual
/-- Reads one JSON value at the start of the input (white space before it
already skipped).  The first argument bounds the nesting of the calls; the
input length plus one is always enough, since every nested call starts after
at least one more character. -/
def parseValue : Nat → JSString → Option (JSVal × JSString)
  | 0, _ => none
  | n + 1, s =>
    match s with
    | [] => none
    | c :: cs =>
      if c = '\x7b' then
        match skipWs cs with
        | '\x7d' :: r => some (.obj [], r)
        | s1 => (parseMembers n s1).map fun (ms, r) => (mkObject ms, r)
      else if c = '[' then
        match skipWs cs with
        | ']' :: r => some (.arr [], r)
        | s1 => (parseElements n s1).map fun (xs, r) => (.arr xs, r)
      else if c = '"' then
        (parseStringBody cs).map fun (x, r) => (.str x, r)
      else if c = 't' then (stripLiteral "rue".toList cs).map fun r => (.bool true, r)
      else if c = 'f' then (stripLiteral "alse".toList cs).map fun r => (.bool false, r)
      else if c = 'n' then (stripLiteral "ull".toList cs).map fun r => (.null, r)
      else (parseNumber s).map fun (x, r) => (.num x, r)
/-- Reads the members of an object up to and including the closing brace; the
input starts at the first member's key. -/
def parseMembers : Nat → JSString → Option (List (JSString × JSVal) × JSString)
  | 0, _ => none
  | n + 1, s =>
    match s with
    | '"' :: cs =>
      match parseStringBody cs with
      | none => none
      | some (k, s1) =>
        match skipWs s1 with
        | ':' :: s2 =>
          match parseValue n (skipWs s2) with
          | none => none
          | some (v, s3) =>
            match skipWs s3 with
            | ',' :: s4 => (parseMembers n (skipWs s4)).map fun (ms, r) => ((k, v) :: ms, r)
            | '\x7d' :: r => some ([(k, v)], r)
            | _ => none
        | _ => none
    | _ => none
/-- Reads the elements of an array up to and including the closing bracket;
the input starts at the first element. -/
def parseElements : Nat → JSString → Option (List JSVal × JSString)
  | 0, _ => none
  | n + 1, s =>
    match parseValue n s with
    | none => none
    | some (v, s1) =>
      match skipWs s1 with
      | ',' :: s2 => (parseElements n (skipWs s2)).map fun (xs, r) => (v :: xs, r)
      | ']' :: r => some ([v], r)
      | _ => none
end

/-- The function `JSON.parse(text)`: the value of a text that is exactly one JSON value
surrounded by optional white space, a `SyntaxError` otherwise. -/
def parse (text : JSString) : Except JSError JSVal :=
  match parseValue (text.length + 1) (skipWs text) with
  | some (v, r) => if skipWs r = [] then .ok v else .error .syntaxError
  | none => .error .syntaxError

/-! ### Values that survive a round trip -/

/-- What may follow a value inside a JSON text written without white space: the
end of the text, a comma, or a closing bracket or brace. -/
def Delimited (rest : JSString) : Prop :=
  rest = [] ∨ ∃ c r, rest = c :: r ∧ (c = ',' ∨ c = ']' ∨ c = '\x7d')

/-- A numeral that `parseNumber` reads back whole in front of a delimiter. -/
def NumeralOK (x : JSString) : Prop :=
  (∃ c t, x = c :: t ∧ (c = '-' ∨ c.isDigit = true)) ∧
    ∀ rest, Delimited rest → parseNumber (x ++ rest) = some (x, rest)

mutual
/-- The values `JSON.stringify` writes in full: no `undefined` inside, numerals
well formed, no object with one key twice. -/
def Plain : JSVal → Prop
  | .undefined => False
  | .null => True
  | .bool _ => True
  | .num x => NumeralOK x
  | .str _ => True
  | .arr xs => PlainItems xs
  | .obj ps => (ps.map Prod.fst).Nodup ∧ PlainProps ps
/-- Every element is `Plain`. -/
def PlainItems : List JSVal → Prop
  | [] => True
  | x :: xs => Plain x ∧ PlainItems xs
/-- Every property value is `Plain`. -/
def PlainProps : List (JSString × JSVal) → Prop
  | [] => True
  | (_, v) :: ps => Plain v ∧ PlainProps ps
end

mutual
/-- A bound on the nesting of parser calls needed to read a value back. -/
def weight : JSVal → Nat
  | .arr xs => weightItems xs + 1
  | .obj ps => weightProps ps + 1
  | _ => 1
/-- The bound for the elements of an array. -/
def weightItems : List JSVal → Nat
  | [] => 0
  | x :: xs => weight x + weightItems xs + 1
/-- The bound for the members of an object. -/
def weightProps : List (JSString × JSVal) → Nat
  | [] => 0
  | (_, v) :: ps => weight v + weightProps ps + 1
end

end JSON

/-! ## Web Storage -/

/-- The `Storage` interface the source calls on `localStorage`, over a type of
store states.  Every call may raise; a call that raises leaves the store as it
was.  `null` results are `none`. -/
structure Storage (σ : Type) where
  length : σ → Except JSError Nat
  key : σ → Nat → Except JSError (Option JSString)
  getItem : σ → JSString → Except JSError (Option JSString)
  setItem : σ → JSString → JSString → Except JSError σ
  removeItem : σ → JSString → Except JSError σ

/-- Sets the value of a key in an ordered key/value list: an existing key keeps
its position, a new key is appended. -/
def upsert (k v : JSString) : List (JSString × JSString) → List (JSString × JSString)
  | [] => [(k, v)]
  | (k1, v1) :: rest => if k1 = k then (k, v) :: rest else (k1, v1) :: upsert k v rest

/-- Removes a key from an ordered key/value list. -/
def eraseKey (k : JSString) (l : List (JSString × JSString)) : List (JSString × JSString) :=
  l.filter fun p => p.1 ≠ k

/-- The value held under a key of an ordered key/value list. -/
def lookupKey (k : JSString) : List (JSString × JSString) → Option JSString
  | [] => none
  | (k1, v1) :: rest => if k1 = k then some v1 else lookupKey k rest

/-- The state of a `localStorage` area as the Web Storage standard describes
it: a map from keys to values, enumerated in some order, together with the user
agent's quota policy, which tells of a would-be content whether storing it is
refused.  The standard leaves the order of enumeration to the user agent; here
a new key goes last and the other keys keep their places. -/
structure LocalStorage where
  items : List (JSString × JSString)
  keysNodup : (items.map Prod.fst).Nodup
  refuses : List (JSString × JSString) → Bool

namespace LocalStorage

/-- The attribute `length`. -/
def length (s : LocalStorage) : Nat := s.items.length

/-- The method `key(i)`: the i-th key, `null` past the end. -/
def key (s : LocalStorage) (i : Nat) : Option JSString := (s.items.get? i).map Prod.fst

/-- The method `getItem(k)`. -/
def getItem (s : LocalStorage) (k : JSString) : Option JSString := lookupKey k s.items

/-- The method `setItem(k, v)`: raises `QuotaExceededError`, storing nothing,
when the user agent refuses the new content. -/
def setItem (s : LocalStorage) (k v : JSString) : Except JSError LocalStorage :=
  if s.refuses (upsert k v s.items) then .error (.host "QuotaExceededError".toList)
  else .ok
    { items := upsert k v s.items
      refuses := s.refuses
      keysNodup := by
        have hmem : ∀ (l : List (JSString × JSString)) (a : JSString),
            a ∈ (upsert k v l).map Prod.fst → a ∈ l.map Prod.fst ∨ a = k := by
          intro l a
          induction l with
          | nil => simp [upsert]
          | cons p rest ih =>
            obtain ⟨k1, v1⟩ := p
            by_cases h : k1 = k
            · subst h
              simp only [upsert, if_true, List.map_cons, List.mem_cons]
              tauto
            · simp only [upsert, if_neg h, List.map_cons, List.mem_cons]
              tauto
        have hnd : ∀ l : List (JSString × JSString), (l.map Prod.fst).Nodup →
            ((upsert k v l).map Prod.fst).Nodup := by
          intro l
          induction l with
          | nil => simp [upsert]
          | cons p rest ih =>
            obtain ⟨k1, v1⟩ := p
            intro h
            simp only [List.map_cons, List.nodup_cons] at h
            by_cases hk : k1 = k
            · subst hk
              simpa [upsert] using h
            · simp only [upsert, if_neg hk, List.map_cons, List.nodup_cons]
              exact ⟨fun hc => (hmem rest k1 hc).elim h.1 hk, ih h.2⟩
        exact hnd s.items s.keysNodup }

/-- The method `removeItem(k)`: does nothing when the key is absent. -/
def removeItem (s : LocalStorage) (k : JSString) : LocalStorage :=
  { items := eraseKey k s.items
    refuses := s.refuses
    keysNodup := ((List.filter_sublist s.items).map Prod.fst).nodup s.keysNodup }

/-- A store holding the given items under a policy that refuses no content. -/
def unbounded (items : List (JSString × JSString)) (h : (items.map Prod.fst).Nodup) :
    LocalStorage := ⟨items, h, fun _ => false⟩

/-- The number of characters a content occupies. -/
def contentSize (items : List (JSString × JSString)) : Nat :=
  (items.map fun p => p.1.length + p.2.length).sum

/-- A store holding the given items under a policy that refuses every content
larger than `limit` characters. -/
def bounded (limit : Nat) (items : List (JSString × JSString))
    (h : (items.map Prod.fst).Nodup) : LocalStorage :=
  ⟨items, h, fun content => decide (limit < contentSize content)⟩

end LocalStorage

/-- The `localStorage` object of a browser that conforms to the Web Storage
standard: only `setItem` can raise. -/
def webStorage : Storage LocalStorage where
  length s := .ok s.length
  key s i := .ok (s.key i)
  getItem s k := .ok (s.getItem k)
  setItem s k v := s.setItem k v
  removeItem s k := .ok (s.removeItem k)

/-! ## storage.js: `CodeStorage` -/

namespace CodeStorage

/-- The literal `'code_widget_'` that starts every snippet key. -/
def keyStem : JSString := "code_widget_".toList

/-- The template literal that forms the storage key of a filename. -/
def snippetKey (filename : JSString) : JSString := keyStem ++ filename

/-- The object literal `saveSnippet` serializes; `now` is the value of
`new Date().toISOString()`. -/
def snippetRecord (language filename code now : JSString) : JSVal :=
  .obj [("language".toList, .str language), ("filename".toList, .str filename),
    ("code".toList, .str code), ("lastModified".toList, .str now)]

/-- The function `CodeStorage.saveSnippet(language, filename, code)` with the clock reading
`now`: the returned boolean and the store afterwards. -/
def saveSnippet {σ : Type} (ls : Storage σ) (now language filename code : JSString)
    (s : σ) : Bool × σ :=
  let key := snippetKey filename
  let snippet := snippetRecord language filename code now
  match ls.setItem s key (JSON.stringify snippet) with
  | .ok s1 => (true, s1)
  | .error _ => (false, s)

/-- The function `CodeStorage.loadSnippet(filename)`; the result `null` is
`JSVal.null`. -/
def loadSnippet {σ : Type} (ls : Storage σ) (filename : JSString) (s : σ) : JSVal :=
  let key := snippetKey filename
  match ls.getItem s key with
  | .error _ => .null
  | .ok none => .null
  | .ok (some data) =>
    if data ≠ [] then
      match JSON.parse data with
      | .ok v => v
      | .error _ => .null
    else .null

/-- An element of the array `getSavedSnippets` returns. -/
structure SnippetInfo where
  filename : JSVal
  language : JSVal
  lastModified : JSVal

/-- Lines 62-67 of `getSavedSnippets`: what one stored item (`null` as `none`)
adds to the array: `JSON.parse` of it, then the three property reads. -/
def readInfo (item : Option JSString) : Except JSError SnippetInfo :=
  match JSON.parse (item.getD "null".toList) with
  | .error e => .error e
  | .ok data =>
    match getProp data "filename".toList, getProp data "language".toList,
      getProp data "lastModified".toList with
    | .ok f, .ok l, .ok m => .ok ⟨f, l, m⟩
    | _, _, _ => .error .typeError

/-- The body of the loop of `getSavedSnippets` for index `i`: the array after
the iteration, or the exception that ends the loop. -/
def listStep {σ : Type} (ls : Storage σ) (s : σ) (i : Nat) (snippets : List SnippetInfo) :
    Except JSError (List SnippetInfo) :=
  match ls.key s i with
  | .error e => .error e
  | .ok none => .error .typeError
  | .ok (some key) =>
    if keyStem.isPrefixOf key then
      match ls.getItem s key with
      | .error e => .error e
      | .ok item =>
        match readInfo item with
        | .error e => .error e
        | .ok info => .ok (snippets ++ [info])
    else .ok snippets

/-- The loop of `getSavedSnippets` from index `i` on, inside its `try`: the
condition reads `localStorage.length` anew each time; any exception ends the
loop with the array as it stands.  The first argument bounds the number of
iterations. -/
def listLoop {σ : Type} (ls : Storage σ) (s : σ) :
    Nat → Nat → List SnippetInfo → List SnippetInfo
  | 0, _, snippets => snippets
  | fuel + 1, i, snippets =>
    match ls.length s with
    | .error _ => snippets
    | .ok n =>
      if i < n then
        match listStep ls s i snippets with
        | .error _ => snippets
        | .ok snippets1 => listLoop ls s fuel (i + 1) snippets1
      else snippets

/-- The function `CodeStorage.getSavedSnippets()`.  The loop runs at most
`localStorage.length` times. -/
def getSavedSnippets {σ : Type} (ls : Storage σ) (s : σ) : List SnippetInfo :=
  match ls.length s with
  | .error _ => []
  | .ok n => listLoop ls s n 0 []

/-- The function `CodeStorage.deleteSnippet(filename)`: the returned boolean and the store
afterwards. -/
def deleteSnippet {σ : Type} (ls : Storage σ) (filename : JSString) (s : σ) : Bool × σ :=
  let key := snippetKey filename
  match ls.removeItem s key with
  | .ok s1 => (true, s1)
  | .error _ => (false, s)

/-- The loop of `getSavedSnippets` told over the items of a store in their
order, for comparison with `listLoop`: an item under a snippet key is read and
appended, and the first one that cannot be read ends the listing. -/
def listFrom : List (JSString × JSString) → List SnippetInfo → List SnippetInfo
  | [], snippets => snippets
  | (k, v) :: rest, snippets =>
    if keyStem.isPrefixOf k then
      match readInfo (some v) with
      | .ok info => listFrom rest (snippets ++ [info])
      | .error _ => snippets
    else listFrom rest snippets

/-- Whether the `filename` of a listed entry is the string `f`. -/
def SnippetInfo.named (f : JSString) (info : SnippetInfo) : Bool :=
  match info.filename with
  | .str g => g = f
  | _ => false

/-- A call of `saveSnippet` (with its clock reading) or of `deleteSnippet`. -/
inductive StoreOp where
  | save (now language filename code : JSString)
  | delete (filename : JSString)

/-- Runs one call: the returned boolean and the store afterwards. -/
def StoreOp.run {σ : Type} (ls : Storage σ) (op : StoreOp) (s : σ) : Bool × σ :=
  match op with
  | .save now language filename code => saveSnippet ls now language filename code s
  | .delete filename => deleteSnippet ls filename s

/-- Runs a sequence of calls in order; `none` as soon as one returns `false`. -/
def runAll {σ : Type} (ls : Storage σ) : List StoreOp → σ → Option σ
  | [], s => some s
  | op :: ops, s =>
    match op.run ls s with
    | (true, s1) => runAll ls ops s1
    | (false, _) => none

/-- A filename is live after a sequence of calls when some call saved it and no
later call deleted it. -/
def Live (ops : List StoreOp) (f : JSString) : Prop :=
  ∃ before after now language code,
    ops = before ++ StoreOp.save now language f code :: after ∧
      ∀ op ∈ after, ∀ g, op = StoreOp.delete g → g ≠ f

/-- A content tracks a sequence of calls when its snippet items are exactly the
records of the live filenames, each under its own key. -/
def Tracks (items : List (JSString × JSString)) (ops : List StoreOp) : Prop :=
  (∀ k v, (k, v) ∈ items → keyStem.isPrefixOf k = true →
    ∃ f l c t, k = snippetKey f ∧ v = JSON.stringify (snippetRecord l f c t) ∧ Live ops f) ∧
  ∀ f, Live ops f → snippetKey f ∈ items.map Prod.fst

end CodeStorage

/-! ## groq-api.js: `GroqAPI` -/

namespace GroqAPI

/-- The property `API_KEY_STORAGE_KEY`: the empty string. -/
def API_KEY_STORAGE_KEY : JSString := []

/-- The function `GroqAPI.saveApiKey(apiKey)`: the returned boolean and the store
afterwards. -/
def saveApiKey {σ : Type} (ls : Storage σ) (apiKey : JSString) (s : σ) : Bool × σ :=
  match ls.setItem s API_KEY_STORAGE_KEY apiKey with
  | .ok s1 => (true, s1)
  | .error _ => (false, s)

/-- The function `GroqAPI.getApiKey()`; `none` is `null`. -/
def getApiKey {σ : Type} (ls : Storage σ) (s : σ) : Option JSString :=
  match ls.getItem s API_KEY_STORAGE_KEY with
  | .ok v => v
  | .error _ => none

/-- The function `GroqAPI.hasApiKey()`: `!!this.getApiKey()`. -/
def hasApiKey {σ : Type} (ls : Storage σ) (s : σ) : Bool :=
  match getApiKey ls s with
  | some k => !k.isEmpty
  | none => false

/-- The arguments of one `fetch` call. -/
structure FetchRequest where
  url : JSString
  method : JSString
  headers : List (JSString × JSString)
  body : JSString

/-- What the code reads of a `Response`: `ok`, `statusText` and the outcome of
`response.json()`. -/
structure Response where
  ok : Bool
  statusText : JSString
  json : Except JSError JSVal

/-- The message of the error thrown when no key is stored. -/
def missingKeyMessage : JSString :=
  "No API key found. Please set your Groq API key first.".toList

/-- The prompt used when none is given. -/
def defaultPrompt (language : JSString) : JSString :=
  "Generate an interesting and educational code snippet in ".toList ++ language ++
    " that demonstrates a useful concept or technique.".toList

/-- The content of the system message. -/
def systemPrompt : JSString :=
  ("You are a helpful coding assistant that generates high-quality, educational code " ++
   "snippets. Your response should follow this exact format: First, provide any " ++
   "explanatory comments in plain text (not in code blocks). Then, provide ONLY the " ++
   "code in a single markdown code block with the appropriate language tag. Do not " ++
   "wrap the entire response in quotes.").toList

/-- The object literal passed to `JSON.stringify` for the request body. -/
def requestPayload (prompt : JSString) : JSVal :=
  .obj [("model".toList, .str "qwen-2.5-coder-32b".toList),
    ("messages".toList, .arr [
      .obj [("role".toList, .str "system".toList), ("content".toList, .str systemPrompt)],
      .obj [("role".toList, .str "user".toList), ("content".toList, .str prompt)]]),
    ("temperature".toList, .num "0.7".toList),
    ("max_tokens".toList, .num "2048".toList)]

/-- The `fetch` call of `generateCodeSnippet`. -/
def buildRequest (apiKey prompt : JSString) : FetchRequest where
  url := "https://api.groq.com/openai/v1/chat/completions".toList
  method := "POST".toList
  headers := [("Authorization".toList, "Bearer ".toList ++ apiKey),
    ("Content-Type".toList, "application/json".toList)]
  body := JSON.stringify (requestPayload prompt)

/-- Lines 90-93: the error thrown for a response that is not `ok`. -/
def apiError (N : NumberOps) (response : Response) : JSError :=
  match response.json with
  | .error e => e
  | .ok errorData =>
    match getProp errorData "error".toList with
    | .error e => e
    | .ok err =>
      match getPropOpt err "message".toList with
      | .error e => e
      | .ok message =>
        let detail := if truthy N message then message else .str response.statusText
        .error ("API Error: ".toList ++ toStr N detail)

/-- Lines 95-108: the value returned for a response that is `ok`. -/
def readCompletion (response : Response) : Except JSError JSString :=
  match response.json with
  | .error e => .error e
  | .ok data =>
    match getProp data "choices".toList with
    | .error e => .error e
    | .ok choices =>
      match getProp choices "0".toList with
      | .error e => .error e
      | .ok choice =>
        match getProp choice "message".toList with
        | .error e => .error e
        | .ok message =>
          match getProp message "content".toList with
          | .error e => .error e
          | .ok (.str content) => .ok (extractCode content)
          | .ok _ => .error .typeError

/-- The function `GroqAPI.generateCodeSnippet(language, prompt)`, with `prompt` absent as
`none`: the `fetch` calls made, in order, and the outcome of the returned
promise.  `fetch` gives the outcome of the awaited call. -/
def generateCodeSnippet {σ : Type} (N : NumberOps) (ls : Storage σ)
    (fetch : FetchRequest → Except JSError Response) (s : σ)
    (language : JSString) (prompt : Option JSString) :
    List FetchRequest × Except JSError JSString :=
  let prompt0 := prompt.getD []
  match getApiKey ls s with
  | none => ([], .error (.error missingKeyMessage))
  | some apiKey =>
    if apiKey.isEmpty then ([], .error (.error missingKeyMessage))
    else
      let prompt1 := if prompt0.isEmpty then defaultPrompt language else prompt0
      let request := buildRequest apiKey prompt1
      match fetch request with
      | .error e => ([request], .error e)
      | .ok response =>
        if !response.ok then ([request], .error (apiError N response))
        else ([request], readCompletion response)

/-- The content of the second message (the user message) in the body of a
request, read back from the JSON text sent. -/
def userMessage (request : FetchRequest) : Except JSError JSVal :=
  match JSON.parse request.body with
  | .error e => .error e
  | .ok payload =>
    match getProp payload "messages".toList with
    | .error e => .error e
    | .ok messages =>
      match getProp messages "1".toList with
      | .error e => .error e
      | .ok message => getProp message "content".toList

end GroqAPI

/-! ## ui.js: the generation handlers of `CodeUI`

The page is a record of the DOM properties the handlers read and write.  A call
of `generateCodeSnippet` returns a promise: the call itself (key check, the
`fetch` call) happens in the handler that makes it, and the `then` / `catch`
callbacks run in a later event, with the outcome of the promise. -/

namespace CodeUI

open GroqAPI

/-- What the browser supplies to the handlers: Number behaviour, the answers of
`fetch`, and the `message` of the exception objects the platform creates. -/
structure Browser where
  numbers : NumberOps
  fetch : FetchRequest → Except JSError Response
  nativeMessage : JSError → JSString

/-- The property `error.message` of a caught exception. -/
def errorMessage (B : Browser) : JSError → JSString
  | .error message => message
  | e => B.nativeMessage e

/-- The element `#code-notification` as `showNotification` leaves it:
`textContent` and `className`. -/
structure Notice where
  text : JSString
  kind : JSString

/-- A call of `generateCodeSnippet` made by `performAutoGeneration` whose
promise has not settled: the `language` its callbacks close over, and the
outcome the promise will settle with. -/
structure Generation where
  language : JSString
  outcome : Except JSError JSString

/-- The DOM properties the generation handlers read and write, the store, the
generations in flight and the `fetch` calls made so far. -/
structure Page where
  store : LocalStorage
  /-- The property `disabled` of `#generate-button`. -/
  generateDisabled : Bool
  /-- The property `value` of `#language-select`. -/
  languageSelect : JSString
  /-- The property `value` of `#editor-textarea`. -/
  textarea : JSString
  /-- The property `textContent` of `#language-tab`. -/
  languageTab : JSString
  /-- The property `className` of `#editor-highlight`. -/
  highlightClass : JSString
  notice : Option Notice
  inFlight : List Generation
  requests : List FetchRequest

/-- The object literal `shortNames`. -/
def shortNames : List (JSString × JSString) :=
  [("javascript".toList, "js".toList), ("typescript".toList, "ts".toList),
   ("jsx".toList, "jsx".toList), ("html".toList, "html".toList),
   ("css".toList, "css".toList), ("python".toList, "py".toList),
   ("json".toList, "json".toList)]

/-- The UTF-16 code units of a character: one in the basic plane, a leading
and a trailing surrogate beyond it. -/
def codeUnits (c : Char) : List Nat :=
  if c.toNat < 0x10000 then [c.toNat]
  else [0xD800 + (c.toNat - 0x10000) / 0x400, 0xDC00 + (c.toNat - 0x10000) % 0x400]

/-- The string a run of UTF-16 code units denotes; a surrogate without its
partner is written U+FFFD. -/
def ofCodeUnits (units : List Nat) : JSString :=
  JSON.decodeItems (units.map JSON.StringItem.unit)

/-- The method `s.substring(start, stop)` for natural numbers: the code units
from the smaller index up to the larger one. -/
def substring (s : JSString) (start stop : Nat) : JSString :=
  let units := (s.map codeUnits).flatten
  ofCodeUnits ((units.take (max start stop)).drop (min start stop))

/-- The value a textarea hands out after an assignment to its `value`: every
carriage return, together with the line feed after it if there is one, has
become one line feed. -/
def normalizeNewlines : JSString → JSString
  | [] => []
  | [c] => [if c = '\r' then '\n' else c]
  | c :: d :: rest =>
    if c = '\r' ∧ d = '\n' then '\n' :: normalizeNewlines rest
    else (if c = '\r' then '\n' else c) :: normalizeNewlines (d :: rest)

/-- The expression `shortNames[language] || language.substring(0, 2)`.  A
language naming a property every object inherits (`constructor`, ...) is
outside the model. -/
def shortName (language : JSString) : JSString :=
  match lookupKey language shortNames with
  | some short => short
  | none => substring language 0 2

/-- The function `showNotification(message, type)`, without its timers. -/
def showNotification (p : Page) (message kind : JSString) : Page :=
  { p with notice := some ⟨message, kind⟩ }

/-- The function `performAutoGeneration()` up to the return of the promise:
lines 46-55. -/
def performAutoGeneration (B : Browser) (p : Page) : Page :=
  let language := p.languageSelect
  let p1 := showNotification p "Generating code...".toList "success".toList
  let call := generateCodeSnippet B.numbers webStorage B.fetch p1.store language none
  { p1 with
    inFlight := p1.inFlight ++ [⟨language, call.2⟩]
    requests := p1.requests ++ call.1 }

/-- The callbacks of `performAutoGeneration`, lines 56-90: `then` for a
fulfilled promise, `catch` for a rejected one. -/
def generationSettled (B : Browser) (p : Page) (g : Generation) : Page :=
  match g.outcome with
  | .ok generatedCode =>
    showNotification
      { p with
        languageTab := shortName g.language
        textarea := normalizeNewlines generatedCode
        highlightClass := "language-".toList ++ g.language }
      "Code generated successfully!".toList "success".toList
  | .error e =>
    showNotification p ("Error: ".toList ++ errorMessage B e) "error".toList

/-- The events of the page that concern generation: a click on
`#generate-button`, and the settling of the i-th generation in flight. -/
inductive Event where
  | clickGenerate
  | settle (i : Nat)

/-- One event.  A disabled button receives no click; the click listener of
`#generate-button` (lines 321-324) calls `performAutoGeneration`. -/
def step (B : Browser) (p : Page) : Event → Page
  | .clickGenerate => if p.generateDisabled then p else performAutoGeneration B p
  | .settle i =>
    match p.inFlight.get? i with
    | none => p
    | some g => generationSettled B { p with inFlight := p.inFlight.eraseIdx i } g

/-- A sequence of events, in order. -/
def run (B : Browser) (p : Page) (events : List Event) : Page :=
  events.foldl (step B) p

/-- The property the specification asks of the generate control: while a
generation it started is in flight, it is disabled. -/
def Guarded (p : Page) : Prop := p.inFlight ≠ [] → p.generateDisabled = true

/-- The modal built by `showGenerateModal` (which no handler calls): the
values of `#generate-language` and `#generate-prompt`, the property
`disabled` of `#generate-code-button`, whether `#generation-status` is
displayed, whether the modal is in the document, and the outcome of the
generation its button started, if one is in flight. -/
structure GenerateModal where
  language : JSString
  prompt : JSString
  buttonDisabled : Bool
  statusShown : Bool
  attached : Bool
  pending : Option (JSString × Except JSError JSString)

/-- The click listener of `#generate-code-button` up to its `await`, lines
616-629.  A disabled button receives no click. -/
def modalGenerateClick (B : Browser) (p : Page) (m : GenerateModal) : Page × GenerateModal :=
  if m.buttonDisabled then (p, m)
  else
    let language := m.language
    let prompt := trim m.prompt
    let call := generateCodeSnippet B.numbers webStorage B.fetch p.store language (some prompt)
    ({ p with requests := p.requests ++ call.1 },
      { m with statusShown := true, buttonDisabled := true, pending := some (language, call.2) })

/-- The rest of the click listener of `#generate-code-button` once the awaited
promise has settled, lines 629-672.  Removing a modal that is no longer in the
document raises inside the `try`. -/
def modalGenerationSettled (B : Browser) (p : Page) (m : GenerateModal) :
    Page × GenerateModal :=
  match m.pending with
  | none => (p, m)
  | some (language, outcome) =>
    let failed (p1 : Page) (e : JSError) : Page × GenerateModal :=
      (showNotification p1 ("Error: ".toList ++ errorMessage B e) "error".toList,
        { m with statusShown := false, buttonDisabled := false, pending := none })
    match outcome with
    | .ok generatedCode =>
      let p1 : Page :=
        { p with
          languageSelect := language
          languageTab := shortName language
          textarea := normalizeNewlines generatedCode
          highlightClass := "language-".toList ++ language }
      if m.attached then
        (showNotification p1 "Code generated successfully!".toList "success".toList,
          { m with attached := false, pending := none })
      else failed p1 (.host "NotFoundError".toList)
    | .error e => failed p e

end CodeUI

/-! ## Concrete stores and responses used as examples -/

namespace Examples

open CodeStorage GroqAPI

/-- A store holding nothing. -/
def emptyStore : LocalStorage := LocalStorage.unbounded [] List.nodup_nil

/-- A store holding only an API key. -/
def keyStore : LocalStorage :=
  LocalStorage.unbounded [(API_KEY_STORAGE_KEY, "gsk_test".toList)] (by decide)

/-- A store holding an API key and the snippet `b.py`. -/
def homeStore : LocalStorage :=
  LocalStorage.unbounded
    [(API_KEY_STORAGE_KEY, "gsk_test".toList),
     (snippetKey "b.py".toList,
      JSON.stringify (snippetRecord "python".toList "b.py".toList "print(2)".toList
        "2024-04-30T08:00:00.000Z".toList))]
    (by decide)

/-- A store whose only item sits under a snippet key and is not JSON. -/
def strayStore : LocalStorage :=
  LocalStorage.unbounded [("code_widget_old".toList, "not json".toList)] (by decide)

/-- A store whose two snippet items are JSON texts that denote no snippet
record: the number `5` under the key of `f`, the object `{"x":1}` under the
key of `g`. -/
def foreignStore : LocalStorage :=
  LocalStorage.unbounded
    [("code_widget_f".toList, "5".toList),
     ("code_widget_g".toList, "\x7b\"x\":1\x7d".toList)]
    (by decide)

/-- The store after saving `a.js` twice, starting from a given store. -/
def savedTwice (s : LocalStorage) : LocalStorage :=
  (saveSnippet webStorage "2024-05-01T10:05:00.000Z".toList "typescript".toList "a.js".toList
    "let a: number = 2;".toList
    (saveSnippet webStorage "2024-05-01T10:00:00.000Z".toList "javascript".toList
      "a.js".toList "let a = 1;".toList s).2).2

/-- Saving `a`, `b` and `c`, then deleting `b`. -/
def abcCalls : List StoreOp :=
  [.save "2024-05-01T10:00:00.000Z".toList "javascript".toList "a".toList "1".toList,
   .save "2024-05-01T10:01:00.000Z".toList "python".toList "b".toList "2".toList,
   .save "2024-05-01T10:02:00.000Z".toList "css".toList "c".toList "3".toList,
   .delete "b".toList]

/-- The store after `abcCalls` on `keyStore`. -/
def abcStore : LocalStorage := (runAll webStorage abcCalls keyStore).getD keyStore

/-- A stand-in for the platform's Number behaviour: a numeral is zero when no
digit from 1 to 9 occurs in it, and prints as it is written. -/
def sampleNumbers : NumberOps where
  isZero x := x.all fun c => !(decide ('1' ≤ c) && decide (c ≤ '9'))
  toString x := x

/-- A response with status 401 whose body reports `bad key`. -/
def badKeyResponse : Response where
  ok := false
  statusText := "Unauthorized".toList
  json := JSON.parse "\x7b\"error\":\x7b\"message\":\"bad key\"\x7d\x7d".toList

/-- A response with status 401 whose body reports an empty message. -/
def emptyMessageResponse : Response where
  ok := false
  statusText := "Unauthorized".toList
  json := JSON.parse "\x7b\"error\":\x7b\"message\":\"\"\x7d\x7d".toList

/-- A response with status 502 whose body is the JSON text `null`. -/
def nullBodyResponse : Response where
  ok := false
  statusText := "Bad Gateway".toList
  json := JSON.parse "null".toList

/-- A successful response holding one fenced block. -/
def okResponse : Response where
  ok := true
  statusText := "OK".toList
  json := .ok (.obj [("choices".toList, .arr [.obj [("message".toList,
    .obj [("content".toList, .str "Here:\n```js\nlet a = 1;\n```".toList)])]])])

/-- A browser whose remote answers every request with `okResponse`. -/
def sampleBrowser : CodeUI.Browser where
  numbers := sampleNumbers
  fetch _ := .ok okResponse
  nativeMessage _ := "native error".toList

/-- A browser whose remote answers every request with `badKeyResponse`. -/
def refusingBrowser : CodeUI.Browser where
  numbers := sampleNumbers
  fetch _ := .ok badKeyResponse
  nativeMessage _ := "native error".toList

/-- The page as `init` leaves it before any generation: a key is stored,
`#generate-button` is enabled, `python` is selected, nothing is in flight. -/
def idlePage : CodeUI.Page where
  store := keyStore
  generateDisabled := false
  languageSelect := "python".toList
  textarea := []
  languageTab := "py".toList
  highlightClass := "language-python".toList
  notice := none
  inFlight := []
  requests := []

/-- A generate modal just opened, with `css` chosen and no prompt. -/
def freshModal : CodeUI.GenerateModal where
  language := "css".toList
  prompt := []
  buttonDisabled := false
  statusShown := false
  attached := true
  pending := none

/-- A storage whose every call raises `SecurityError`, as when the page may not
use `localStorage` at all. -/
def brokenStorage : Storage Unit where
  length _ := .error (.host "SecurityError".toList)
  key _ _ := .error (.host "SecurityError".toList)
  getItem _ _ := .error (.host "SecurityError".toList)
  setItem _ _ _ := .error (.host "SecurityError".toList)
  removeItem _ _ := .error (.host "SecurityError".toList)

/-- A store with room for ten characters, holding nothing. -/
def tinyStore : LocalStorage := LocalStorage.bounded 10 [] List.nodup_nil

/-- A store holding, in this order, a snippet item whose text is `null`, the
snippet `b.py`, and a snippet item that is not JSON. -/
def nullItemStore : LocalStorage :=
  LocalStorage.unbounded
    [("code_widget_a".toList, "null".toList),
     (snippetKey "b.py".toList,
      JSON.stringify (snippetRecord "python".toList "b.py".toList "print(2)".toList
        "2024-04-30T08:00:00.000Z".toList)),
     ("code_widget_c".toList, "not json".toList)]
    (by decide)

/-- A store holding, in this order, the snippet `b.py`, an API key, a snippet
item that is not JSON, and the snippet `d.js`. -/
def brokenMiddleStore : LocalStorage :=
  LocalStorage.unbounded
    [(snippetKey "b.py".toList,
      JSON.stringify (snippetRecord "python".toList "b.py".toList "print(2)".toList
        "2024-04-30T08:00:00.000Z".toList)),
     (API_KEY_STORAGE_KEY, "gsk_test".toList),
     ("code_widget_c".toList, "not json".toList),
     (snippetKey "d.js".toList,
      JSON.stringify (snippetRecord "javascript".toList "d.js".toList "let d;".toList
        "2024-04-30T09:00:00.000Z".toList))]
    (by decide)

end Examples

/-! ## `JSON.parse` after `JSON.stringify` -/

namespace JSON

theorem hexCode_control : ∀ n : Fin 32,
    hexCode '0' '0' (hexDigit (n.val / 16)) (hexDigit (n.val % 16)) = some n.val := by
  decide

theorem unitChar_toNat (c : Char) : unitChar c.toNat = c := by
  have h : c.toNat.isValidChar := c.valid
  simp [unitChar, h]

theorem decodeItems_char (c : Char) (x : List StringItem) :
    decodeItems (.char c :: x) = c :: decodeItems x := by
  rw [decodeItems]

theorem decodeItems_unit (n : Nat) (x : List StringItem) (hn : isLeadSurrogate n = false) :
    decodeItems (.unit n :: x) = unitChar n :: decodeItems x := by
  match x with
  | [] => rfl
  | .char c :: rest => simp [decodeItems]
  | .unit m :: rest => rw [decodeItems]; simp [hn]

theorem parseStringBody_close (rest : JSString) :
    parseStringBody ('"' :: rest) = some ([], rest) := by
  rw [parseStringBody, parseItems.eq_def]; simp [decodeItems]

theorem parseStringBody_plain (c : Char) (rest : JSString) (h1 : c ≠ '"') (h2 : c ≠ '\\')
    (h3 : ¬ c.toNat < 0x20) :
    parseStringBody (c :: rest) = (parseStringBody rest).map fun (x, r) => (c :: x, r) := by
  rw [parseStringBody, parseStringBody, parseItems.eq_def]
  rcases hr : parseItems rest with _ | ⟨x, r⟩ <;> simp [h1, h2, h3, hr, decodeItems_char]

theorem parseStringBody_simple (e ch : Char) (rest : JSString) (h1 : e ≠ 'u')
    (h2 : unescape e = some ch) :
    parseStringBody ('\\' :: e :: rest) =
      (parseStringBody rest).map fun (x, r) => (ch :: x, r) := by
  rw [parseStringBody, parseStringBody, parseItems.eq_def]
  rcases hr : parseItems rest with _ | ⟨x, r⟩ <;> simp [h1, h2, hr, decodeItems_char]

theorem parseStringBody_hex (a b c d : Char) (n : Nat) (rest : JSString)
    (h : hexCode a b c d = some n) (hn : isLeadSurrogate n = false) :
    parseStringBody ('\\' :: 'u' :: a :: b :: c :: d :: rest) =
      (parseStringBody rest).map fun (x, r) => (unitChar n :: x, r) := by
  rw [parseStringBody, parseStringBody, parseItems.eq_def]
  rcases hr : parseItems rest with _ | ⟨x, r⟩ <;> simp [h, hr, decodeItems_unit _ _ hn]

theorem parseStringBody_escapeChar (c : Char) (t : JSString) :
    parseStringBody (escapeChar c ++ t) = (parseStringBody t).map fun (x, r) => (c :: x, r) := by
  unfold escapeChar
  split_ifs with h1 h2 h3 h4 h5 h6 h7 h8
  · subst h1; exact parseStringBody_simple _ _ _ (by decide) (by decide)
  · subst h2; exact parseStringBody_simple _ _ _ (by decide) (by decide)
  · subst h3; exact parseStringBody_simple _ _ _ (by decide) (by decide)
  · subst h4; exact parseStringBody_simple _ _ _ (by decide) (by decide)
  · subst h5; exact parseStringBody_simple _ _ _ (by decide) (by decide)
  · subst h6; exact parseStringBody_simple _ _ _ (by decide) (by decide)
  · subst h7; exact parseStringBody_simple _ _ _ (by decide) (by decide)
  · have hh := hexCode_control ⟨c.toNat, h8⟩
    have hl : isLeadSurrogate c.toNat = false := by
      simp only [isLeadSurrogate, Bool.and_eq_false_imp, decide_eq_true_eq, decide_eq_false_iff_not]
      omega
    have hp := parseStringBody_hex _ _ _ _ _ t hh hl
    rw [unitChar_toNat] at hp
    exact hp
  · exact parseStringBody_plain c t h1 h2 h8

theorem parseStringBody_escape (s rest : JSString) :
    parseStringBody (escape s ++ '"' :: rest) = some (s, rest) := by
  induction s with
  | nil => exact parseStringBody_close rest
  | cons c cs ih =>
    rw [escape, List.append_assoc, parseStringBody_escapeChar, ih]
    rfl

theorem skipWs_cons (c : Char) (r : JSString) (h : isWs c = false) :
    skipWs (c :: r) = c :: r := by
  simp [skipWs, List.dropWhile, h]

theorem parseValue_string (n : Nat) (s rest : JSString) :
    parseValue (n + 1) (quote s ++ rest) = some (.str s, rest) := by
  have h := parseStringBody_escape s rest
  simp only [quote, List.cons_append, List.append_assoc, List.singleton_append]
  rw [parseValue.eq_def]
  simp [h]

theorem parseValue_null (n : Nat) (rest : JSString) :
    parseValue (n + 1) ("null".toList ++ rest) = some (.null, rest) := by
  show parseValue (n + 1) ('n' :: 'u' :: 'l' :: 'l' :: rest) = _
  rw [parseValue.eq_def]
  simp [stripLiteral, List.isPrefixOf]

theorem parseValue_true (n : Nat) (rest : JSString) :
    parseValue (n + 1) ("true".toList ++ rest) = some (.bool true, rest) := by
  show parseValue (n + 1) ('t' :: 'r' :: 'u' :: 'e' :: rest) = _
  rw [parseValue.eq_def]
  simp [stripLiteral, List.isPrefixOf]

theorem parseValue_false (n : Nat) (rest : JSString) :
    parseValue (n + 1) ("false".toList ++ rest) = some (.bool false, rest) := by
  show parseValue (n + 1) ('f' :: 'a' :: 'l' :: 's' :: 'e' :: rest) = _
  rw [parseValue.eq_def]
  simp [stripLiteral, List.isPrefixOf]

theorem parseValue_number (n : Nat) (x rest : JSString) (hx : NumeralOK x)
    (hr : Delimited rest) : parseValue (n + 1) (x ++ rest) = some (.num x, rest) := by
  obtain ⟨⟨c, t, rfl, hc⟩, hp⟩ := hx
  have h := hp rest hr
  have h1 : c ≠ '\x7b' ∧ c ≠ '[' ∧ c ≠ '"' ∧ c ≠ 't' ∧ c ≠ 'f' ∧ c ≠ 'n' := by
    rcases hc with rfl | hc
    · decide
    · refine ⟨?_, ?_, ?_, ?_, ?_, ?_⟩ <;> rintro rfl <;> exact absurd hc (by decide)
  obtain ⟨a1, a2, a3, a4, a5, a6⟩ := h1
  simp only [List.cons_append] at h ⊢
  rw [parseValue.eq_def]
  simp [a1, a2, a3, a4, a5, a6, h]

theorem parseValue_emptyObject (n : Nat) (rest : JSString) :
    parseValue (n + 1) ('\x7b' :: '\x7d' :: rest) = some (.obj [], rest) := by
  rw [parseValue.eq_def]
  simp [skipWs, List.dropWhile, isWs]

theorem parseValue_emptyArray (n : Nat) (rest : JSString) :
    parseValue (n + 1) ('[' :: ']' :: rest) = some (.arr [], rest) := by
  rw [parseValue.eq_def]
  simp [skipWs, List.dropWhile, isWs]

theorem parseValue_object (n : Nat) (cs : JSString) :
    parseValue (n + 1) ('\x7b' :: '"' :: cs) =
      (parseMembers n ('"' :: cs)).map fun (ms, r) => (mkObject ms, r) := by
  rw [parseValue.eq_def]
  simp [skipWs, List.dropWhile, isWs]

theorem parseValue_array (n : Nat) (c : Char) (cs : JSString) (h1 : isWs c = false)
    (h2 : c ≠ ']') :
    parseValue (n + 1) ('[' :: c :: cs) =
      (parseElements n (c :: cs)).map fun (xs, r) => (.arr xs, r) := by
  rw [parseValue.eq_def]
  simp only [skipWs_cons c cs h1]
  simp
  split
  · rename_i heq
    simp at heq
    exact absurd heq.1 h2
  · rfl

theorem serialize_plain_head (v : JSVal) (hv : Plain v) :
    ∃ c r, serialize v = some (c :: r) ∧ isWs c = false ∧ c ≠ ']' := by
  cases v with
  | undefined => exact absurd hv (by simp [Plain])
  | null => exact ⟨'n', _, rfl, by decide, by decide⟩
  | bool b => cases b <;> exact ⟨_, _, rfl, by decide, by decide⟩
  | num x =>
    simp only [Plain] at hv
    obtain ⟨⟨c, t, rfl, hc⟩, _⟩ := hv
    refine ⟨c, t, rfl, ?_, ?_⟩
    · rcases hc with rfl | hc
      · decide
      · by_contra h
        have h' : c = '\t' ∨ c = '\n' ∨ c = '\r' ∨ c = ' ' := by
          simp only [isWs, Bool.not_eq_false, Bool.or_eq_true, decide_eq_true_eq] at h
          tauto
        rcases h' with rfl | rfl | rfl | rfl <;> exact absurd hc (by decide)
    · rcases hc with rfl | hc
      · decide
      · rintro rfl
        exact absurd hc (by decide)
  | str s => exact ⟨'"', _, rfl, by decide, by decide⟩
  | arr xs => exact ⟨'[', _, rfl, by decide, by decide⟩
  | obj ps => exact ⟨'\x7b', _, rfl, by decide, by decide⟩

theorem serializeProps_cons (first : Bool) (k : JSString) (v : JSVal) (t : JSString)
    (ps : List (JSString × JSVal)) (h : serialize v = some t) :
    serializeProps first ((k, v) :: ps) =
      (if first then [] else [',']) ++ quote k ++ ':' :: t ++ serializeProps false ps := by
  rw [serializeProps, h]

theorem serializeItems_cons_cons (x y : JSVal) (r : List JSVal) :
    serializeItems (x :: y :: r) =
      (serialize x).getD "null".toList ++ ',' :: serializeItems (y :: r) := by
  rw [serializeItems]

theorem serializeItems_single (x : JSVal) :
    serializeItems [x] = (serialize x).getD "null".toList := by
  rw [serializeItems]

theorem parseElements_last (n : Nat) (s rest : JSString) (v : JSVal)
    (h : parseValue n s = some (v, ']' :: rest)) :
    parseElements (n + 1) s = some ([v], rest) := by
  rw [parseElements.eq_def]
  simp [h, skipWs, List.dropWhile, isWs]

theorem parseElements_more (n : Nat) (s : JSString) (c : Char) (r : JSString) (v : JSVal)
    (hc : isWs c = false) (h : parseValue n s = some (v, ',' :: c :: r)) :
    parseElements (n + 1) s =
      (parseElements n (c :: r)).map fun (xs, r1) => (v :: xs, r1) := by
  rw [parseElements.eq_def]
  have h1 : skipWs (',' :: c :: r) = ',' :: c :: r := skipWs_cons _ _ (by decide)
  simp [h, h1, skipWs_cons c r hc]

theorem parseMembers_last (n : Nat) (k t rest : JSString) (c : Char) (v : JSVal)
    (hc : isWs c = false)
    (h : parseValue n (c :: t) = some (v, '\x7d' :: rest)) :
    parseMembers (n + 1) (quote k ++ ':' :: c :: t) = some ([(k, v)], rest) := by
  have hk := parseStringBody_escape k (':' :: c :: t)
  simp only [quote, List.cons_append, List.append_assoc, List.singleton_append]
  rw [parseMembers.eq_def]
  have h1 : skipWs (':' :: c :: t) = ':' :: c :: t := skipWs_cons _ _ (by decide)
  have h2 : skipWs ('\x7d' :: rest) = '\x7d' :: rest := skipWs_cons _ _ (by decide)
  simp [hk, h1, skipWs_cons c t hc, h, h2]

theorem parseMembers_more (n : Nat) (k t r : JSString) (c d : Char) (v : JSVal)
    (hc : isWs c = false) (hd : isWs d = false)
    (h : parseValue n (c :: t) = some (v, ',' :: d :: r)) :
    parseMembers (n + 1) (quote k ++ ':' :: c :: t) =
      (parseMembers n (d :: r)).map fun (ms, r1) => ((k, v) :: ms, r1) := by
  have hk := parseStringBody_escape k (':' :: c :: t)
  simp only [quote, List.cons_append, List.append_assoc, List.singleton_append]
  rw [parseMembers.eq_def]
  have h1 : skipWs (':' :: c :: t) = ':' :: c :: t := skipWs_cons _ _ (by decide)
  have h2 : skipWs (',' :: d :: r) = ',' :: d :: r := skipWs_cons _ _ (by decide)
  simp [hk, h1, skipWs_cons c t hc, h, h2, skipWs_cons d r hd]

theorem delimited_comma (r : JSString) : Delimited (',' :: r) :=
  Or.inr ⟨',', r, rfl, Or.inl rfl⟩

theorem delimited_bracket (r : JSString) : Delimited (']' :: r) :=
  Or.inr ⟨']', r, rfl, Or.inr (Or.inl rfl)⟩

theorem delimited_brace (r : JSString) : Delimited ('\x7d' :: r) :=
  Or.inr ⟨'\x7d', r, rfl, Or.inr (Or.inr rfl)⟩

theorem setProp_fresh (ps : List (JSString × JSVal)) (k : JSString) (v : JSVal)
    (h : k ∉ ps.map Prod.fst) : setProp ps k v = ps ++ [(k, v)] := by
  unfold setProp
  have : ps.any (fun p => decide (p.1 = k)) = false := by
    rw [Bool.eq_false_iff]
    intro hc
    simp only [List.any_eq_true, decide_eq_true_eq] at hc
    obtain ⟨p, hp, rfl⟩ := hc
    exact h (List.mem_map_of_mem Prod.fst hp)
  simp [this]

theorem foldl_setProp_nodup (ps acc : List (JSString × JSVal))
    (h : ((acc ++ ps).map Prod.fst).Nodup) :
    ps.foldl (fun qs m => setProp qs m.1 m.2) acc = acc ++ ps := by
  induction ps generalizing acc with
  | nil => simp
  | cons p ps ih =>
    have hfresh : p.1 ∉ acc.map Prod.fst := by
      intro hc
      simp only [List.map_append, List.map_cons] at h
      have := (List.nodup_append.mp h).2.2
      exact this hc (List.mem_cons_self _ _)
    rw [List.foldl_cons, setProp_fresh acc p.1 p.2 hfresh, ih]
    · simp
    · simpa using h

theorem mkObject_nodup (ps : List (JSString × JSVal)) (h : (ps.map Prod.fst).Nodup) :
    mkObject ps = .obj ps := by
  unfold mkObject
  rw [foldl_setProp_nodup ps [] (by simpa using h)]
  rfl

mutual
theorem roundtrip_value (v : JSVal) (hv : Plain v) (n : Nat) (rest : JSString)
    (hn : weight v ≤ n) (hr : Delimited rest) :
    ∃ t, serialize v = some t ∧ parseValue n (t ++ rest) = some (v, rest) := by
  obtain ⟨m, rfl⟩ : ∃ m, n = m + 1 := by
    cases n with
    | zero => cases v <;> simp [weight] at hn
    | succ m => exact ⟨m, rfl⟩
  match v, hv, hn with
  | .undefined, hv, _ => exact absurd hv (by simp [Plain])
  | .null, _, _ => exact ⟨_, rfl, parseValue_null m rest⟩
  | .bool true, _, _ => exact ⟨_, rfl, parseValue_true m rest⟩
  | .bool false, _, _ => exact ⟨_, rfl, parseValue_false m rest⟩
  | .num x, hv, _ =>
    simp only [Plain] at hv
    exact ⟨x, rfl, parseValue_number m x rest hv hr⟩
  | .str s, _, _ => exact ⟨_, rfl, parseValue_string m s rest⟩
  | .arr [], _, _ => exact ⟨_, rfl, parseValue_emptyArray m rest⟩
  | .arr (x :: xs), hv, hn =>
    simp only [Plain] at hv
    simp only [weight, Nat.add_le_add_iff_right] at hn
    have h1 := roundtrip_items (x :: xs) (by simp) hv m rest hn
    refine ⟨_, rfl, ?_⟩
    obtain ⟨c, r, hc, hws, hbr⟩ := serialize_plain_head x (by
      simp only [PlainItems] at hv; exact hv.1)
    have hhead : ∃ r1, serializeItems (x :: xs) = c :: r1 := by
      cases xs with
      | nil => exact ⟨r, by simp [serializeItems_single, hc]⟩
      | cons y ys => exact ⟨_, by simp [serializeItems_cons_cons, hc]; rfl⟩
    obtain ⟨r1, hr1⟩ := hhead
    rw [hr1] at h1 ⊢
    simp only [List.cons_append, List.append_assoc, List.singleton_append,
      List.nil_append] at h1 ⊢
    rw [parseValue_array m c _ hws hbr, h1]
    rfl
  | .obj [], _, _ => exact ⟨_, rfl, parseValue_emptyObject m rest⟩
  | .obj ((k, w) :: ps), hv, hn =>
    simp only [Plain] at hv
    simp only [weight, Nat.add_le_add_iff_right] at hn
    have h1 := roundtrip_props ((k, w) :: ps) (by simp) hv.2 m rest hn
    refine ⟨_, rfl, ?_⟩
    obtain ⟨c, r, hc, -, -⟩ := serialize_plain_head w (by
      have := hv.2; simp only [PlainProps] at this; exact this.1)
    rw [serializeProps_cons true k w _ ps hc] at h1 ⊢
    simp only [quote, if_true, List.nil_append, List.cons_append, List.append_assoc,
      List.singleton_append] at h1 ⊢
    rw [parseValue_object m, h1, ← mkObject_nodup _ hv.1]
    rfl
theorem roundtrip_items (xs : List JSVal) (hne : xs ≠ []) (hx : PlainItems xs) (n : Nat)
    (rest : JSString) (hn : weightItems xs ≤ n) :
    parseElements n (serializeItems xs ++ ']' :: rest) = some (xs, rest) := by
  match xs, hne, hx, hn with
  | [x], _, hx, hn =>
    simp only [PlainItems] at hx
    simp only [weightItems] at hn
    obtain ⟨m, rfl⟩ : ∃ m, n = m + 1 := ⟨n - 1, by omega⟩
    obtain ⟨t, ht, hp⟩ := roundtrip_value x hx.1 m (']' :: rest) (by omega)
      (delimited_bracket rest)
    rw [serializeItems_single, ht]
    exact parseElements_last m _ rest x hp
  | x :: y :: r, _, hx, hn =>
    simp only [PlainItems] at hx
    simp only [weightItems] at hn
    obtain ⟨m, rfl⟩ : ∃ m, n = m + 1 := ⟨n - 1, by omega⟩
    have hx2 : PlainItems (y :: r) := by simp only [PlainItems]; exact hx.2
    have ih := roundtrip_items (y :: r) (by simp) hx2 m rest (by simp only [weightItems]; omega)
    obtain ⟨c, r0, hc, hws, -⟩ := serialize_plain_head y hx.2.1
    have hhead : ∃ r1, serializeItems (y :: r) = c :: r1 := by
      cases r with
      | nil => exact ⟨r0, by simp [serializeItems_single, hc]⟩
      | cons z zs => exact ⟨_, by simp [serializeItems_cons_cons, hc]; rfl⟩
    obtain ⟨r1, hr1⟩ := hhead
    obtain ⟨t, ht, hp⟩ := roundtrip_value x hx.1 m (',' :: (c :: r1 ++ ']' :: rest))
      (by omega) (delimited_comma _)
    rw [serializeItems_cons_cons, ht, hr1]
    rw [hr1] at ih
    simp only [Option.getD_some, List.cons_append, List.append_assoc] at hp ih ⊢
    rw [parseElements_more m _ c _ x hws hp, ih]
    rfl
theorem roundtrip_props (ps : List (JSString × JSVal)) (hne : ps ≠ []) (hp : PlainProps ps)
    (n : Nat) (rest : JSString) (hn : weightProps ps ≤ n) :
    parseMembers n (serializeProps true ps ++ '\x7d' :: rest) = some (ps, rest) := by
  match ps, hne, hp, hn with
  | [(k, v)], _, hp, hn =>
    simp only [PlainProps] at hp
    simp only [weightProps] at hn
    obtain ⟨m, rfl⟩ : ∃ m, n = m + 1 := ⟨n - 1, by omega⟩
    obtain ⟨c, r0, hc, hws, -⟩ := serialize_plain_head v hp.1
    obtain ⟨t, ht, hpv⟩ := roundtrip_value v hp.1 m ('\x7d' :: rest) (by omega)
      (delimited_brace rest)
    rw [hc] at ht
    cases ht
    rw [serializeProps_cons true k v _ [] hc]
    simp only [serializeProps, if_true, List.nil_append, List.cons_append, List.append_assoc,
      List.append_nil] at hpv ⊢
    exact parseMembers_last m k _ rest c v hws hpv
  | (k, v) :: (k2, v2) :: r, _, hp, hn =>
    simp only [PlainProps] at hp
    simp only [weightProps] at hn
    obtain ⟨m, rfl⟩ : ∃ m, n = m + 1 := ⟨n - 1, by omega⟩
    have hp2 : PlainProps ((k2, v2) :: r) := by simp only [PlainProps]; exact hp.2
    have ih := roundtrip_props ((k2, v2) :: r) (by simp) hp2 m rest
      (by simp only [weightProps]; omega)
    obtain ⟨c, r0, hc, hws, -⟩ := serialize_plain_head v hp.1
    obtain ⟨c2, r2, hc2, -, -⟩ := serialize_plain_head v2 hp.2.1
    rw [serializeProps_cons true k2 v2 _ r hc2] at ih
    obtain ⟨t, ht, hpv⟩ := roundtrip_value v hp.1 m
      (',' :: (quote k2 ++ ':' :: (c2 :: r2) ++ serializeProps false r ++ '\x7d' :: rest))
      (by omega) (delimited_comma _)
    rw [hc] at ht
    cases ht
    rw [serializeProps_cons true k v _ _ hc, serializeProps_cons false k2 v2 _ r hc2]
    simp only [quote, if_true, Bool.false_eq_true, if_false, List.nil_append, List.cons_append,
      List.append_assoc, List.singleton_append] at hpv ih ⊢
    have := parseMembers_more m k _ _ c '"' v hws (by decide) hpv
    simp only [quote, List.cons_append, List.append_assoc, List.singleton_append,
      List.nil_append] at this
    rw [this, ih]
    rfl
end

mutual
theorem weight_le_length (v : JSVal) (hv : Plain v) :
    ∃ t, serialize v = some t ∧ weight v ≤ t.length := by
  match v, hv with
  | .undefined, hv => exact absurd hv (by simp [Plain])
  | .null, _ => exact ⟨_, rfl, by simp [weight]⟩
  | .bool true, _ => exact ⟨_, rfl, by simp [weight]⟩
  | .bool false, _ => exact ⟨_, rfl, by simp [weight]⟩
  | .num x, hv =>
    simp only [Plain] at hv
    obtain ⟨⟨c, t, rfl, -⟩, -⟩ := hv
    exact ⟨_, rfl, by simp [weight]⟩
  | .str s, _ => exact ⟨_, rfl, by simp [weight, quote]⟩
  | .arr xs, hv =>
    simp only [Plain] at hv
    have := weightItems_le_length xs hv
    exact ⟨_, rfl, by simp [weight]; omega⟩
  | .obj ps, hv =>
    simp only [Plain] at hv
    have := weightProps_le_length ps hv.2 true
    exact ⟨_, rfl, by simp [weight]; omega⟩
theorem weightItems_le_length (xs : List JSVal) (hx : PlainItems xs) :
    weightItems xs ≤ (serializeItems xs).length + 1 := by
  match xs, hx with
  | [], _ => simp [weightItems]
  | [x], hx =>
    simp only [PlainItems] at hx
    obtain ⟨t, ht, hw⟩ := weight_le_length x hx.1
    simp only [weightItems, serializeItems_single, ht, Option.getD_some]
    omega
  | x :: y :: r, hx =>
    simp only [PlainItems] at hx
    obtain ⟨t, ht, hw⟩ := weight_le_length x hx.1
    have ih := weightItems_le_length (y :: r) (by simp only [PlainItems]; exact hx.2)
    simp only [weightItems] at ih
    simp only [weightItems, serializeItems_cons_cons, ht, Option.getD_some, List.length_append,
      List.length_cons]
    omega
theorem weightProps_le_length (ps : List (JSString × JSVal)) (hp : PlainProps ps)
    (first : Bool) : weightProps ps ≤ (serializeProps first ps).length := by
  match ps, hp with
  | [], _ => simp [weightProps]
  | (k, v) :: r, hp =>
    simp only [PlainProps] at hp
    obtain ⟨t, ht, hw⟩ := weight_le_length v hp.1
    have ih := weightProps_le_length r hp.2 false
    simp only [weightProps, serializeProps_cons first k v t r ht, List.length_append,
      List.length_cons, quote]
    omega
end

/-- Reading back: `JSON.parse` returns what `JSON.stringify` wrote, for every value
written in full. -/
theorem parse_stringify (v : JSVal) (hv : Plain v) : parse (stringify v) = .ok v := by
  obtain ⟨t, ht, hw⟩ := weight_le_length v hv
  obtain ⟨c, r, hc, hws, -⟩ := serialize_plain_head v hv
  obtain ⟨t1, ht1, hp⟩ := roundtrip_value v hv (t.length + 1) [] (by omega) (Or.inl rfl)
  rw [ht] at ht1 hc
  cases ht1
  cases hc
  simp only [List.append_nil] at hp
  simp only [stringify, ht, Option.getD_some, parse, skipWs_cons c r hws, hp]
  simp [skipWs]

end JSON

/-! ## Properties of the extraction step -/

theorem dropWhile_append_stop {p : Char → Bool} (a : JSString) (c : Char) (b : JSString)
    (hc : p c = false) : (a ++ c :: b).dropWhile p = a.dropWhile p ++ c :: b := by
  induction a with
  | nil => simp [List.dropWhile, hc]
  | cons x xs ih =>
    by_cases hx : p x
    · simp [List.dropWhile, hx, ih]
    · simp [List.dropWhile, hx]

theorem trimStart_append_stop (a : JSString) (c : Char) (b : JSString)
    (hc : isWhiteSpace c = false) : trimStart (a ++ c :: b) = trimStart a ++ c :: b :=
  dropWhile_append_stop a c b hc

theorem trimEnd_append_stop (a : JSString) (c : Char) (b : JSString)
    (hc : isWhiteSpace c = false) : trimEnd (a ++ c :: b) = a ++ c :: trimEnd b := by
  unfold trimEnd
  have h := dropWhile_append_stop (p := isWhiteSpace) b.reverse c a.reverse hc
  simp only [List.reverse_append, List.reverse_cons, List.append_assoc, List.singleton_append]
  rw [h]
  simp

theorem trimEnd_nil : trimEnd [] = [] := rfl

theorem trimStart_suffix (s : JSString) : trimStart s <:+ s := List.dropWhile_suffix _

theorem trimEnd_initial (s : JSString) : trimEnd s <+: s := by
  unfold trimEnd
  have h := List.dropWhile_suffix (l := s.reverse) isWhiteSpace
  have := List.reverse_prefix.mpr h
  simpa using this

theorem trim_within (s : JSString) : trim s <:+: s :=
  (trimEnd_initial _).isInfix.trans (trimStart_suffix s).isInfix

/-- The text before and after `trim s` inside `s` is white space. -/
theorem trim_decompose (s : JSString) :
    ∃ lead trail, s = lead ++ trim s ++ trail ∧
      (∀ c ∈ lead, isWhiteSpace c = true) ∧ (∀ c ∈ trail, isWhiteSpace c = true) := by
  refine ⟨s.takeWhile isWhiteSpace,
    ((trimStart s).reverse.takeWhile isWhiteSpace).reverse, ?_, ?_, ?_⟩
  · have h1 : s = s.takeWhile isWhiteSpace ++ trimStart s :=
      (List.takeWhile_append_dropWhile isWhiteSpace s).symm
    have h2 : trimStart s = trim s ++ ((trimStart s).reverse.takeWhile isWhiteSpace).reverse := by
      have := List.takeWhile_append_dropWhile isWhiteSpace (trimStart s).reverse
      have h3 := congrArg List.reverse this
      simp only [List.reverse_append, List.reverse_reverse] at h3
      exact h3.symm
    rw [List.append_assoc, ← h2, ← h1]
  · intro c hc
    exact List.mem_takeWhile_imp hc
  · intro c hc
    exact List.mem_takeWhile_imp (List.mem_reverse.mp hc)
theorem no_early_close (b post : JSString) (hne : b ≠ [])
    (hno : ¬ closingFence <:+: b) :
    closingFence.isPrefixOf (b ++ closingFence ++ post) = false := by
  match b, hne, hno with
  | [x], _, _ => simp [closingFence, fence, List.isPrefixOf]
  | [x, y], _, _ => simp [closingFence, fence, List.isPrefixOf]
  | [x, y, z], _, _ => simp [closingFence, fence, List.isPrefixOf]
  | x :: y :: z :: w :: r, _, hno =>
    by_contra hc
    apply hno
    simp only [closingFence, fence, List.cons_append, List.isPrefixOf, Bool.and_eq_true,
      beq_iff_eq, Bool.not_eq_false, Bool.and_true] at hc
    obtain ⟨h1, h2, h3, h4⟩ := hc
    subst h1 h2 h3 h4
    exact ⟨[], r, by simp [closingFence, fence]⟩

theorem lazyBody_body (body post : JSString) (hne : body ≠ [])
    (hno : ¬ closingFence <:+: body) :
    lazyBody (body ++ closingFence ++ post) = some body := by
  induction body with
  | nil => exact absurd rfl hne
  | cons c b ih =>
    have hb : ¬ closingFence <:+: b := fun h => hno (h.trans (List.suffix_cons c b).isInfix)
    by_cases hbe : b = []
    · subst hbe
      simp [lazyBody, closingFence, fence]
    · have h1 := no_early_close b post hbe hb
      have h2 := ih hbe hb
      simp only [List.cons_append, List.append_assoc, lazyBody] at h1 h2 ⊢
      simp [h1, h2]
theorem afterTag_word (c : Char) (cs : JSString) (hc : isWordChar c = true) :
    afterTag (c :: cs) = none := by
  have : c ≠ '\n' := by
    rintro rfl
    exact absurd hc (by decide)
  unfold afterTag
  split
  · rename_i h
    simp at h
    exact absurd h.1 this
  · rfl

theorem wordsThen_tag (tag r : JSString) (hne : tag ≠ [])
    (hw : ∀ c ∈ tag, isWordChar c = true) :
    wordsThen (tag ++ '\n' :: r) = lazyBody r := by
  induction tag with
  | nil => exact absurd rfl hne
  | cons c t ih =>
    have hc : isWordChar c = true := hw c (List.mem_cons_self c t)
    have ht : ∀ d ∈ t, isWordChar d = true := fun d hd => hw d (List.mem_cons_of_mem c hd)
    by_cases hte : t = []
    · subst hte
      have hn : isWordChar '\n' = false := by decide
      simp [wordsThen, hc, hn, afterTag]
    · have h1 := ih hte ht
      obtain ⟨d, t1, rfl⟩ := List.exists_cons_of_ne_nil hte
      have hd : isWordChar d = true := ht d (List.mem_cons_self d t1)
      have h2 := afterTag_word d (t1 ++ '\n' :: r) hd
      simp only [List.cons_append] at h1 h2 ⊢
      rw [wordsThen, if_pos hc, h1, h2]
      cases lazyBody r <;> rfl

theorem tagThen_tag (tag r : JSString) (hw : ∀ c ∈ tag, isWordChar c = true) :
    tagThen (tag ++ '\n' :: r) = lazyBody r := by
  by_cases hte : tag = []
  · subst hte
    have hn : isWordChar '\n' = false := by decide
    simp [tagThen, wordsThen, hn, afterTag]
  · have h1 := wordsThen_tag tag r hte hw
    obtain ⟨d, t1, rfl⟩ := List.exists_cons_of_ne_nil hte
    have hd : isWordChar d = true := hw d (List.mem_cons_self d t1)
    have h2 := afterTag_word d (t1 ++ '\n' :: r) hd
    simp only [List.cons_append] at h1 h2 ⊢
    rw [tagThen, h1, h2]
    cases lazyBody r <;> rfl

theorem tagThen_backtick (r : JSString) : tagThen ('\x60' :: r) = none := by
  have hn : isWordChar '\x60' = false := by decide
  simp [tagThen, wordsThen, hn, afterTag]

theorem matchHere_fence (r : JSString) : matchHere (fence ++ r) = tagThen r := rfl

theorem matchHere_before_fence (c : Char) (p r : JSString) (h : ¬ fence <:+: c :: p) :
    matchHere (c :: p ++ fence ++ r) = none := by
  match p, h with
  | [], _ =>
    unfold matchHere
    split
    · rename_i cs heq
      simp [fence] at heq
      rw [← heq.2]
      exact tagThen_backtick r
    · rfl
  | [d], _ =>
    unfold matchHere
    split
    · rename_i cs heq
      simp [fence] at heq
      rw [← heq.2.2]
      exact tagThen_backtick _
    · rfl
  | d :: e :: q, h =>
    unfold matchHere
    split
    · rename_i cs heq
      simp [fence] at heq
      exfalso
      apply h
      refine ⟨[], q, ?_⟩
      simp [fence, heq.1, heq.2.1, heq.2.2.1]
    · rfl

theorem codeBlockMatch_skip (pre r : JSString) (h : ¬ fence <:+: pre) :
    codeBlockMatch (pre ++ fence ++ r) = codeBlockMatch (fence ++ r) := by
  induction pre with
  | nil => rfl
  | cons c p ih =>
    have hp : ¬ fence <:+: p := fun hh => h (hh.trans (List.suffix_cons c p).isInfix)
    have h1 := matchHere_before_fence c p r h
    have h2 := ih hp
    simp only [List.cons_append, List.append_assoc] at h1 h2 ⊢
    rw [codeBlockMatch, h1, h2]

theorem codeBlockMatch_fence (r : JSString) (m : JSString) (h : tagThen r = some m) :
    codeBlockMatch (fence ++ r) = some m := by
  have h1 : matchHere ('\x60' :: '\x60' :: '\x60' :: r) = some m := h
  show codeBlockMatch ('\x60' :: '\x60' :: '\x60' :: r) = some m
  rw [codeBlockMatch, h1]

theorem trim_fenced (pre mid post : JSString) :
    trim (pre ++ (fence ++ (mid ++ (closingFence ++ post)))) =
      trimStart pre ++ (fence ++ (mid ++ (closingFence ++ trimEnd post))) := by
  have hb : isWhiteSpace '\x60' = false := by decide
  unfold trim
  have h1 : trimStart (pre ++ (fence ++ (mid ++ (closingFence ++ post)))) =
      trimStart pre ++ (fence ++ (mid ++ (closingFence ++ post))) := by
    simp only [fence, List.cons_append, List.nil_append]
    exact trimStart_append_stop _ _ _ hb
  rw [h1]
  have h2 : trimStart pre ++ (fence ++ (mid ++ (closingFence ++ post))) =
      (trimStart pre ++ (fence ++ (mid ++ ['\n', '\x60', '\x60']))) ++ '\x60' :: post := by
    simp [closingFence, fence]
  rw [h2, trimEnd_append_stop _ _ _ hb]
  simp [closingFence, fence]

theorem codeBlockMatch_fenced (pre tag body post : JSString)
    (hpre : ¬ fence <:+: pre) (htag : ∀ c ∈ tag, isWordChar c = true)
    (hne : body ≠ []) (hbody : ¬ closingFence <:+: body) :
    codeBlockMatch (pre ++ (fence ++ ((tag ++ '\n' :: body) ++ (closingFence ++ post)))) =
      some body := by
  have h1 := codeBlockMatch_skip pre ((tag ++ '\n' :: body) ++ (closingFence ++ post)) hpre
  rw [List.append_assoc] at h1
  rw [h1]
  apply codeBlockMatch_fence
  have h2 := tagThen_tag tag (body ++ closingFence ++ post) htag
  have h3 := lazyBody_body body post hne hbody
  rw [h3] at h2
  simpa using h2

/-- The extraction step on a content made of a fence-free text, a fence with a
word-character tag, a line feed, a non-empty body without a closing fence, a
closing fence and any text after it. -/
theorem extractCode_fenced (pre tag body post : JSString)
    (hpre : ¬ fence <:+: pre) (htag : ∀ c ∈ tag, isWordChar c = true)
    (hne : body ≠ []) (hbody : ¬ closingFence <:+: body) :
    extractCode (pre ++ (fence ++ ((tag ++ '\n' :: body) ++ (closingFence ++ post)))) =
      trim body := by
  have hpre1 : ¬ fence <:+: trimStart pre :=
    fun h => hpre (h.trans (trimStart_suffix pre).isInfix)
  unfold extractCode
  simp only [trim_fenced,
    codeBlockMatch_fenced (trimStart pre) tag body (trimEnd post) hpre1 htag hne hbody]
  simp [hne]

theorem fence_infix_closingFence : fence <:+: closingFence := ⟨['\n'], [], rfl⟩

theorem matchHere_some_fence (s m : JSString) (h : matchHere s = some m) : fence <+: s := by
  unfold matchHere at h
  split at h
  · exact ⟨_, rfl⟩
  · exact absurd h (by simp)

theorem codeBlockMatch_some_fence (s m : JSString) (h : codeBlockMatch s = some m) :
    fence <:+: s := by
  induction s with
  | nil => simp [codeBlockMatch] at h
  | cons c cs ih =>
    rw [codeBlockMatch] at h
    split at h
    · rename_i m1 hm
      exact (matchHere_some_fence _ _ hm).isInfix
    · exact (ih h).trans (List.suffix_cons c cs).isInfix

theorem extractCode_no_fence (content : JSString) (h : ¬ fence <:+: content) :
    extractCode content = trim content := by
  unfold extractCode
  have h1 : codeBlockMatch (trim content) = none := by
    cases hm : codeBlockMatch (trim content) with
    | none => rfl
    | some m => exact absurd ((codeBlockMatch_some_fence _ _ hm).trans (trim_within content)) h
  simp [h1]

/-- C5: for a content `prose + fence + tag + "\n" + code + "\n" + fence` whose
prose holds no fence, whose tag is empty or made of word characters and whose
code is non-empty and holds no fence, the extraction step returns the code
trimmed. -/
theorem C5_extract_single_block (prose tag code : JSString)
    (hprose : ¬ fence <:+: prose) (htag : ∀ c ∈ tag, isWordChar c = true)
    (hne : code ≠ []) (hcode : ¬ fence <:+: code) :
    extractCode (prose ++ fence ++ tag ++ ['\n'] ++ code ++ ['\n'] ++ fence) = trim code := by
  have hbody : ¬ closingFence <:+: code :=
    fun h => hcode (fence_infix_closingFence.trans h)
  have h := extractCode_fenced prose tag code [] hprose htag hne hbody
  simpa [closingFence] using h

/-- C5, at the content of the specification: the reply
`Here you go:` / fenced `python` block holding `print(1)` yields `print(1)`. -/
theorem C5_extract_single_block_witness :
    extractCode "Here you go:\n```python\nprint(1)\n```".toList = "print(1)".toList :=
  C5_extract_single_block "Here you go:\n".toList "python".toList "print(1)".toList
    (by decide) (by decide) (by decide) (by decide)

/-- C6: for a content holding no fence at all, the extraction step returns the
trimmed content: the content itself but for white space before and after
it. -/
theorem C6_extract_no_block (content : JSString) (h : ¬ fence <:+: content) :
    extractCode content = trim content ∧
      ∃ lead trail, content = lead ++ extractCode content ++ trail ∧
        (∀ c ∈ lead, isWhiteSpace c = true) ∧ (∀ c ∈ trail, isWhiteSpace c = true) := by
  have h1 := extractCode_no_fence content h
  refine ⟨h1, ?_⟩
  rw [h1]
  exact trim_decompose content

/-- C6, at the content of the specification: `just some text` is returned as
it is. -/
theorem C6_extract_no_block_witness :
    extractCode "just some text".toList = "just some text".toList :=
  (C6_extract_no_block "just some text".toList (by decide)).1

/-- C7 fails as stated: a fenced block whose language tag is `c++` is not
matched, and neither is a block with an empty interior; in both cases the whole
content comes back, fences and tag included. -/
theorem C7_counterexample :
    (extractCode "```c++\nint x;\n```".toList = "```c++\nint x;\n```".toList ∧
      extractCode "```c++\nint x;\n```".toList ≠ trim "int x;".toList) ∧
    (extractCode "```js\n\n```".toList = "```js\n\n```".toList ∧
      extractCode "```js\n\n```".toList ≠ trim "".toList) := by
  decide

/-- C7, amended: for a content `pre + fence + tag + "\n" + body + "\n" + fence
+ post` whose `pre` holds no fence, whose tag is empty or made of word
characters and whose body is non-empty and holds no line feed followed by a
fence, the extraction step returns the body trimmed, whatever `post` is: nothing
of `pre`, of the fences, of the tag or of `post` (later blocks included). -/
theorem C7_extract_first_block (pre tag body post : JSString)
    (hpre : ¬ fence <:+: pre) (htag : ∀ c ∈ tag, isWordChar c = true)
    (hne : body ≠ []) (hbody : ¬ closingFence <:+: body) :
    extractCode (pre ++ fence ++ tag ++ ['\n'] ++ body ++ ['\n'] ++ fence ++ post) =
      trim body := by
  have h := extractCode_fenced pre tag body post hpre htag hne hbody
  simpa [closingFence] using h

/-- C7, amended, at a content with prose around the first block and a second
block after it. -/
theorem C7_extract_first_block_witness :
    extractCode
      "Sure!\n```js\nlet a = 1;\n```\nAnd in Python:\n```python\na = 1\n```\nDone.".toList =
      "let a = 1;".toList :=
  C7_extract_first_block "Sure!\n".toList "js".toList "let a = 1;".toList
    "\nAnd in Python:\n```python\na = 1\n```\nDone.".toList
    (by decide) (by decide) (by decide) (by decide)

/-! ## Properties of the snippet store -/

open JSON CodeStorage GroqAPI Examples CodeUI

theorem mem_keys_upsert (k v a : JSString) (l : List (JSString × JSString)) :
    a ∈ (upsert k v l).map Prod.fst ↔ a ∈ l.map Prod.fst ∨ a = k := by
  induction l with
  | nil => simp [upsert]
  | cons p rest ih =>
    obtain ⟨k1, v1⟩ := p
    by_cases h : k1 = k
    · subst h
      simp only [upsert, if_true, List.map_cons, List.mem_cons]
      tauto
    · simp only [upsert, if_neg h, List.map_cons, List.mem_cons, ih]
      tauto

theorem upsert_nodup (k v : JSString) (l : List (JSString × JSString))
    (h : (l.map Prod.fst).Nodup) : ((upsert k v l).map Prod.fst).Nodup := by
  induction l with
  | nil => simp [upsert]
  | cons p rest ih =>
    obtain ⟨k1, v1⟩ := p
    simp only [List.map_cons, List.nodup_cons] at h
    by_cases hk : k1 = k
    · subst hk
      simpa [upsert] using h
    · simp only [upsert, if_neg hk, List.map_cons, List.nodup_cons, mem_keys_upsert]
      exact ⟨fun hc => hc.elim h.1 hk, ih h.2⟩

theorem eraseKey_nodup (k : JSString) (l : List (JSString × JSString))
    (h : (l.map Prod.fst).Nodup) : ((eraseKey k l).map Prod.fst).Nodup :=
  (List.filter_sublist l).map Prod.fst |>.nodup h

theorem lookupKey_upsert_self (k v : JSString) (l : List (JSString × JSString)) :
    lookupKey k (upsert k v l) = some v := by
  induction l with
  | nil => simp [upsert, lookupKey]
  | cons p rest ih =>
    obtain ⟨k1, v1⟩ := p
    by_cases h : k1 = k
    · simp [upsert, lookupKey, h]
    · simp [upsert, lookupKey, h, ih]

theorem lookupKey_upsert_other (k v a : JSString) (l : List (JSString × JSString))
    (h : a ≠ k) : lookupKey a (upsert k v l) = lookupKey a l := by
  induction l with
  | nil => simp [upsert, lookupKey, h.symm]
  | cons p rest ih =>
    obtain ⟨k1, v1⟩ := p
    by_cases h1 : k1 = k
    · subst h1
      simp [upsert, lookupKey, h.symm]
    · simp [upsert, lookupKey, h1, ih]

theorem lookupKey_eq_none (k : JSString) (l : List (JSString × JSString)) :
    lookupKey k l = none ↔ k ∉ l.map Prod.fst := by
  induction l with
  | nil => simp [lookupKey]
  | cons p rest ih =>
    obtain ⟨k1, v1⟩ := p
    by_cases h : k1 = k
    · simp [lookupKey, h]
    · simp only [lookupKey, if_neg h, ih, List.map_cons, List.mem_cons, not_or]
      exact ⟨fun hh => ⟨fun e => h e.symm, hh⟩, fun hh => hh.2⟩

theorem eraseKey_absent (k : JSString) (l : List (JSString × JSString))
    (h : k ∉ l.map Prod.fst) : eraseKey k l = l := by
  unfold eraseKey
  rw [List.filter_eq_self]
  intro p hp
  simp only [ne_eq, decide_eq_true_eq]
  rintro rfl
  exact h (List.mem_map_of_mem Prod.fst hp)

theorem mem_keys_eraseKey (k a : JSString) (l : List (JSString × JSString)) :
    a ∈ (eraseKey k l).map Prod.fst ↔ a ∈ l.map Prod.fst ∧ a ≠ k := by
  simp only [eraseKey, List.mem_map, List.mem_filter, ne_eq, decide_eq_true_eq]
  constructor
  · rintro ⟨p, ⟨hp, hne⟩, rfl⟩
    exact ⟨⟨p, hp, rfl⟩, hne⟩
  · rintro ⟨⟨p, hp, rfl⟩, hne⟩
    exact ⟨p, ⟨hp, hne⟩, rfl⟩

theorem LocalStorage.ext_items (s t : LocalStorage) (h1 : s.items = t.items)
    (h2 : s.refuses = t.refuses) : s = t := by
  cases s; cases t
  simp only at h1 h2
  subst h1 h2
  rfl

/-- What a successful `saveSnippet` leaves in a conforming store. -/
theorem saveSnippet_true (s s1 : LocalStorage) (now language filename code : JSString)
    (h : CodeStorage.saveSnippet webStorage now language filename code s = (true, s1)) :
    s1.items = upsert (CodeStorage.snippetKey filename)
        (JSON.stringify (CodeStorage.snippetRecord language filename code now)) s.items ∧
      s1.refuses = s.refuses := by
  simp only [CodeStorage.saveSnippet, webStorage, LocalStorage.setItem] at h
  split_ifs at h with hq
  · simp at h
  · simp only [Prod.mk.injEq, true_and] at h
    subst h
    exact ⟨rfl, rfl⟩

theorem plain_snippetRecord (language filename code now : JSString) :
    Plain (CodeStorage.snippetRecord language filename code now) := by
  simp only [CodeStorage.snippetRecord, Plain, PlainProps, and_true, List.map]
  decide

theorem stringify_snippetRecord_ne_nil (language filename code now : JSString) :
    JSON.stringify (CodeStorage.snippetRecord language filename code now) ≠ [] := by
  simp [JSON.stringify, CodeStorage.snippetRecord, serialize]

/-- A successful save leaves the serialized record under the key of the
filename. -/
theorem getItem_saveSnippet (s s1 : LocalStorage) (now language filename code : JSString)
    (h : CodeStorage.saveSnippet webStorage now language filename code s = (true, s1)) :
    s1.getItem (CodeStorage.snippetKey filename) =
      some (JSON.stringify (CodeStorage.snippetRecord language filename code now)) := by
  obtain ⟨hi, -⟩ := saveSnippet_true s s1 now language filename code h
  rw [LocalStorage.getItem, hi, lookupKey_upsert_self]

/-- Loading a filename whose key holds a serialized record gives that record. -/
theorem loadSnippet_of_record (s : LocalStorage) (now language filename code : JSString)
    (hg : s.getItem (CodeStorage.snippetKey filename) =
      some (JSON.stringify (CodeStorage.snippetRecord language filename code now))) :
    CodeStorage.loadSnippet webStorage filename s =
      CodeStorage.snippetRecord language filename code now := by
  have hp := parse_stringify _ (plain_snippetRecord language filename code now)
  have hne := stringify_snippetRecord_ne_nil language filename code now
  simp only [CodeStorage.loadSnippet, webStorage, hg, hp, hne, ne_eq, not_false_eq_true,
    if_true]

/-- C1: if `saveSnippet(language, filename, code)` returns `true` with clock
reading `now`, then `loadSnippet(filename)` on the store it leaves returns the
record holding exactly that language, filename and code, with `lastModified`
equal to `now`. -/
theorem C1_save_then_load (s s1 : LocalStorage) (now language filename code : JSString)
    (h : CodeStorage.saveSnippet webStorage now language filename code s = (true, s1)) :
    CodeStorage.loadSnippet webStorage filename s1 =
      .obj [("language".toList, .str language), ("filename".toList, .str filename),
        ("code".toList, .str code), ("lastModified".toList, .str now)] := by
  have hg := getItem_saveSnippet s s1 now language filename code h
  rw [loadSnippet_of_record s1 now language filename code hg]
  rfl

/-- C1, at a concrete save into an empty store. -/
theorem C1_save_then_load_witness :
    CodeStorage.loadSnippet webStorage "a.js".toList
        (CodeStorage.saveSnippet webStorage "2024-05-01T10:00:00.000Z".toList
          "javascript".toList "a.js".toList "let a = \"1\";\n".toList
          (LocalStorage.unbounded [] List.nodup_nil)).2 =
      .obj [("language".toList, .str "javascript".toList),
        ("filename".toList, .str "a.js".toList),
        ("code".toList, .str "let a = \"1\";\n".toList),
        ("lastModified".toList, .str "2024-05-01T10:00:00.000Z".toList)] :=
  C1_save_then_load (LocalStorage.unbounded [] List.nodup_nil) _ _ _ _ _ rfl

theorem lookupKey_of_mem (k v : JSString) (l : List (JSString × JSString))
    (hn : (l.map Prod.fst).Nodup) (h : (k, v) ∈ l) : lookupKey k l = some v := by
  induction l with
  | nil => simp at h
  | cons p rest ih =>
    obtain ⟨k1, v1⟩ := p
    simp only [List.map_cons, List.nodup_cons] at hn
    rcases List.mem_cons.mp h with heq | hmem
    · cases heq
      simp [lookupKey]
    · have hne : k1 ≠ k := by
        rintro rfl
        exact hn.1 (List.mem_map_of_mem Prod.fst hmem)
      simp [lookupKey, hne, ih hn.2 hmem]

theorem listLoop_webStorage (s : LocalStorage) (fuel i : Nat) (acc : List SnippetInfo)
    (h : fuel + i = s.items.length) :
    listLoop webStorage s fuel i acc = listFrom (s.items.drop i) acc := by
  induction fuel generalizing i acc with
  | zero =>
    have : s.items.drop i = [] := List.drop_eq_nil_of_le (by omega)
    simp [listLoop, this, listFrom]
  | succ n ih =>
    have hi : i < s.items.length := by omega
    have hd : s.items.drop i = s.items[i] :: s.items.drop (i + 1) :=
      List.drop_eq_getElem_cons hi
    obtain ⟨k, v, hkv⟩ : ∃ k v, s.items[i] = (k, v) := ⟨_, _, rfl⟩
    have hmem : (k, v) ∈ s.items := hkv ▸ List.getElem_mem hi
    have hget : s.getItem k = some v := lookupKey_of_mem k v s.items s.keysNodup hmem
    have hkey : s.key i = some k := by
      simp [LocalStorage.key, List.getElem?_eq_getElem hi, hkv]
    rw [hd, hkv, listLoop, listFrom]
    simp only [webStorage, LocalStorage.length, hi, if_true, listStep, hkey, hget]
    by_cases hp : keyStem.isPrefixOf k = true
    · simp only [hp, if_true]
      cases hr : readInfo (some v) with
      | error e => rfl
      | ok info => exact ih (i + 1) _ (by omega)
    · simp only [hp, Bool.false_eq_true, if_false]
      exact ih (i + 1) _ (by omega)

/-- On a conforming store `getSavedSnippets` goes through the items in order. -/
theorem getSavedSnippets_webStorage (s : LocalStorage) :
    getSavedSnippets webStorage s = listFrom s.items [] := by
  have := listLoop_webStorage s s.items.length 0 [] rfl
  simpa [getSavedSnippets, webStorage, LocalStorage.length] using this

theorem readInfo_snippetRecord (language filename code now : JSString) :
    readInfo (some (JSON.stringify (snippetRecord language filename code now))) =
      .ok ⟨.str filename, .str language, .str now⟩ := by
  have hp := parse_stringify _ (plain_snippetRecord language filename code now)
  simp only [readInfo, Option.getD_some, hp]
  rfl

theorem keyStem_snippetKey (f : JSString) : keyStem.isPrefixOf (snippetKey f) = true := by
  rw [List.isPrefixOf_iff_prefix]
  exact List.prefix_append _ _

theorem snippetKey_injective (f g : JSString) (h : snippetKey f = snippetKey g) : f = g :=
  List.append_cancel_left h

theorem deleteSnippet_webStorage (s : LocalStorage) (f : JSString) :
    deleteSnippet webStorage f s = (true, s.removeItem (snippetKey f)) := rfl

theorem removeItem_absent (s : LocalStorage) (k : JSString) (h : s.getItem k = none) :
    s.removeItem k = s := by
  apply LocalStorage.ext_items
  · exact eraseKey_absent k s.items ((lookupKey_eq_none k s.items).mp h)
  · rfl

theorem getItem_removeItem_self (s : LocalStorage) (k : JSString) :
    (s.removeItem k).getItem k = none := by
  rw [LocalStorage.getItem, lookupKey_eq_none, LocalStorage.removeItem, mem_keys_eraseKey]
  exact fun h => h.2 rfl

/-- C3: `deleteSnippet(f)` for a filename with no entry in the store returns `true`
and leaves the store as it was, in items and in listing; and for any store,
deleting a filename a second time returns `true` and changes nothing more. -/
theorem C3_delete_absent (s : LocalStorage) (f : JSString) :
    (s.getItem (snippetKey f) = none →
      deleteSnippet webStorage f s = (true, s) ∧
        getSavedSnippets webStorage (deleteSnippet webStorage f s).2 =
          getSavedSnippets webStorage s) ∧
    deleteSnippet webStorage f (deleteSnippet webStorage f s).2 =
      (true, (deleteSnippet webStorage f s).2) := by
  constructor
  · intro h
    have h1 : deleteSnippet webStorage f s = (true, s) := by
      rw [deleteSnippet_webStorage, removeItem_absent s _ h]
    exact ⟨h1, by rw [h1]⟩
  · rw [deleteSnippet_webStorage, deleteSnippet_webStorage]
    rw [removeItem_absent _ _ (getItem_removeItem_self s _)]

theorem named_iff (f : JSString) (info : SnippetInfo) :
    info.named f = true ↔ info.filename = .str f := by
  unfold SnippetInfo.named
  cases info.filename <;> simp

theorem mem_upsert_other (k v a b : JSString) (l : List (JSString × JSString))
    (h : (a, b) ∈ upsert k v l) (hne : a ≠ k) : (a, b) ∈ l := by
  induction l with
  | nil =>
    simp only [upsert, List.mem_singleton, Prod.mk.injEq] at h
    exact absurd h.1 hne
  | cons p rest ih =>
    obtain ⟨k1, v1⟩ := p
    by_cases h1 : k1 = k
    · subst h1
      simp only [upsert, if_true, List.mem_cons, Prod.mk.injEq] at h ⊢
      rcases h with h | h
      · exact absurd h.1 hne
      · exact Or.inr h
    · simp only [upsert, if_neg h1, List.mem_cons] at h ⊢
      rcases h with h | h
      · exact Or.inl h
      · exact Or.inr (ih h)

/-- Items that are all readable and none of which is named `f` add no entry
named `f` to the listing. -/
theorem countP_listFrom_others (f : JSString) (l : List (JSString × JSString))
    (acc : List SnippetInfo)
    (h : ∀ k v, (k, v) ∈ l → keyStem.isPrefixOf k = true →
      ∃ info, readInfo (some v) = .ok info ∧ info.named f = false) :
    (listFrom l acc).countP (SnippetInfo.named f) = acc.countP (SnippetInfo.named f) := by
  induction l generalizing acc with
  | nil => rfl
  | cons p rest ih =>
    obtain ⟨k1, v1⟩ := p
    have hrest : ∀ k v, (k, v) ∈ rest → keyStem.isPrefixOf k = true →
        ∃ info, readInfo (some v) = .ok info ∧ info.named f = false :=
      fun k v hm => h k v (List.mem_cons_of_mem _ hm)
    rw [listFrom]
    by_cases hp : keyStem.isPrefixOf k1 = true
    · obtain ⟨info, hr, hn⟩ := h k1 v1 (List.mem_cons_self _ _) hp
      simp only [hp, if_true, hr]
      rw [ih _ hrest, List.countP_append]
      simp [List.countP_cons, hn]
    · simp only [hp, Bool.false_eq_true, if_false]
      exact ih _ hrest

/-- After a record for `f` is put under the key of `f`, the listing holds one
more entry named `f` than it started with, provided the other snippet items
are readable and not named `f`. -/
theorem countP_listFrom_upsert (f language code now : JSString)
    (l : List (JSString × JSString)) (acc : List SnippetInfo)
    (hn : (l.map Prod.fst).Nodup)
    (h : ∀ k v, (k, v) ∈ l → keyStem.isPrefixOf k = true → k ≠ snippetKey f →
      ∃ info, readInfo (some v) = .ok info ∧ info.named f = false) :
    (listFrom (upsert (snippetKey f) (JSON.stringify (snippetRecord language f code now)) l)
        acc).countP (SnippetInfo.named f) = acc.countP (SnippetInfo.named f) + 1 := by
  have hnamed : SnippetInfo.named f ⟨.str f, .str language, .str now⟩ = true := by
    simp [SnippetInfo.named]
  induction l generalizing acc with
  | nil =>
    simp only [upsert, listFrom, keyStem_snippetKey, if_true, readInfo_snippetRecord]
    rw [List.countP_append]
    simp [List.countP_cons, hnamed]
  | cons p rest ih =>
    obtain ⟨k1, v1⟩ := p
    simp only [List.map_cons, List.nodup_cons] at hn
    have hrest : ∀ k v, (k, v) ∈ rest → keyStem.isPrefixOf k = true → k ≠ snippetKey f →
        ∃ info, readInfo (some v) = .ok info ∧ info.named f = false :=
      fun k v hm => h k v (List.mem_cons_of_mem _ hm)
    by_cases h1 : k1 = snippetKey f
    · subst h1
      simp only [upsert, if_true, listFrom, keyStem_snippetKey, readInfo_snippetRecord]
      rw [countP_listFrom_others f rest _ ?_, List.countP_append]
      · simp [List.countP_cons, hnamed]
      · intro k v hm hp
        have hne : k ≠ snippetKey f := by
          rintro rfl
          exact hn.1 (List.mem_map_of_mem Prod.fst hm)
        exact hrest k v hm hp hne
    · simp only [upsert, if_neg h1]
      rw [listFrom]
      by_cases hp : keyStem.isPrefixOf k1 = true
      · obtain ⟨info, hr, hnm⟩ := h k1 v1 (List.mem_cons_self _ _) hp h1
        simp only [hp, if_true, hr]
        rw [ih _ hn.2 hrest, List.countP_append]
        simp [List.countP_cons, hnm]
      · simp only [hp, Bool.false_eq_true, if_false]
        exact ih _ hn.2 hrest

/-- A key of a store occurs on exactly one of its items. -/
theorem length_filter_key (l : List (JSString × JSString)) (hn : (l.map Prod.fst).Nodup)
    (k : JSString) (hk : k ∈ l.map Prod.fst) :
    (l.filter fun p => p.1 = k).length = 1 := by
  induction l with
  | nil => simp at hk
  | cons p rest ih =>
    obtain ⟨k1, v1⟩ := p
    simp only [List.map_cons, List.nodup_cons] at hn
    by_cases h : k1 = k
    · subst h
      have hnone : rest.filter (fun p => decide (p.1 = k1)) = [] := by
        rw [List.filter_eq_nil_iff]
        intro q hq hqk
        simp only [decide_eq_true_eq] at hqk
        exact hn.1 (hqk ▸ List.mem_map_of_mem Prod.fst hq)
      simp [List.filter_cons, hnone]
    · have hk1 : k ∈ rest.map Prod.fst := by
        simp only [List.map_cons, List.mem_cons] at hk
        rcases hk with hk | hk
        · exact absurd hk.symm h
        · exact hk
      simp [List.filter_cons, h, ih hn.2 hk1]

/-- C2, amended: two successful saves under `f` leave exactly one item under the
key of `f`, and `loadSnippet(f)` returns the record of the second save alone;
and when the other snippet items of the store are each readable and not named
`f`, `getSavedSnippets()` holds exactly one entry named `f`. -/
theorem C2_save_twice (s s1 s2 : LocalStorage) (f l1 c1 t1 l2 c2 t2 : JSString)
    (h1 : saveSnippet webStorage t1 l1 f c1 s = (true, s1))
    (h2 : saveSnippet webStorage t2 l2 f c2 s1 = (true, s2)) :
    (s2.items.filter fun p => p.1 = snippetKey f).length = 1 ∧
      loadSnippet webStorage f s2 =
        .obj [("language".toList, .str l2), ("filename".toList, .str f),
          ("code".toList, .str c2), ("lastModified".toList, .str t2)] ∧
      ((∀ k v, (k, v) ∈ s.items → keyStem.isPrefixOf k = true → k ≠ snippetKey f →
          ∃ info, readInfo (some v) = .ok info ∧ info.named f = false) →
        (getSavedSnippets webStorage s2).countP (SnippetInfo.named f) = 1) := by
  obtain ⟨hi1, -⟩ := saveSnippet_true s s1 t1 l1 f c1 h1
  obtain ⟨hi2, -⟩ := saveSnippet_true s1 s2 t2 l2 f c2 h2
  refine ⟨?_, ?_, ?_⟩
  · apply length_filter_key s2.items s2.keysNodup
    rw [hi2, mem_keys_upsert]
    exact Or.inr rfl
  · rw [loadSnippet_of_record s2 t2 l2 f c2 (getItem_saveSnippet s1 s2 t2 l2 f c2 h2)]
    rfl
  · intro hother
    rw [getSavedSnippets_webStorage, hi2]
    have hother1 : ∀ k v, (k, v) ∈ s1.items → keyStem.isPrefixOf k = true →
        k ≠ snippetKey f → ∃ info, readInfo (some v) = .ok info ∧ info.named f = false := by
      intro k v hm hp hne
      rw [hi1] at hm
      exact hother k v (mem_upsert_other _ _ _ _ _ hm hne) hp hne
    simpa using countP_listFrom_upsert f l2 c2 t2 s1.items [] s1.keysNodup hother1

theorem not_live_nil (f : JSString) : ¬ Live [] f := by
  rintro ⟨before, after, now, language, code, h, -⟩
  simp at h

theorem live_append_save (ops : List StoreOp) (t l g c f : JSString) :
    Live (ops ++ [StoreOp.save t l g c]) f ↔ Live ops f ∨ f = g := by
  constructor
  · rintro ⟨before, after, now, language, code, h, hd⟩
    rcases List.eq_nil_or_concat after with rfl | ⟨after1, y, rfl⟩
    all_goals try rw [List.concat_eq_append] at h hd
    · have := List.append_inj' h (by simp)
      simp only [List.cons.injEq, StoreOp.save.injEq, and_true] at this
      exact Or.inr this.2.2.2.1.symm
    · rw [← List.cons_append, ← List.append_assoc] at h
      have := List.append_inj' h (by simp)
      refine Or.inl ⟨before, after1, now, language, code, this.1, ?_⟩
      intro op hop
      exact hd op (List.mem_append_left _ hop)
  · rintro (⟨before, after, now, language, code, h, hd⟩ | rfl)
    · refine ⟨before, after ++ [StoreOp.save t l g c], now, language, code, by simp [h], ?_⟩
      intro op hop d hdel
      rcases List.mem_append.mp hop with hm | hm
      · exact hd op hm d hdel
      · rw [List.mem_singleton] at hm
        rw [hm] at hdel
        cases hdel
    · exact ⟨ops, [], t, l, c, rfl, by simp⟩

theorem live_append_delete (ops : List StoreOp) (g f : JSString) :
    Live (ops ++ [StoreOp.delete g]) f ↔ Live ops f ∧ f ≠ g := by
  constructor
  · rintro ⟨before, after, now, language, code, h, hd⟩
    rcases List.eq_nil_or_concat after with rfl | ⟨after1, y, rfl⟩
    all_goals try rw [List.concat_eq_append] at h hd
    · have := List.append_inj' h (by simp)
      simp at this
    · rw [← List.cons_append, ← List.append_assoc] at h
      have := List.append_inj' h (by simp)
      simp only [List.cons.injEq, and_true] at this
      refine ⟨⟨before, after1, now, language, code, this.1, ?_⟩, ?_⟩
      · intro op hop
        exact hd op (List.mem_append_left _ hop)
      · intro hfg
        exact hd y (by simp) g this.2.symm hfg.symm
  · rintro ⟨⟨before, after, now, language, code, h, hd⟩, hne⟩
    refine ⟨before, after ++ [StoreOp.delete g], now, language, code, by simp [h], ?_⟩
    intro op hop d hdel
    rcases List.mem_append.mp hop with hm | hm
    · exact hd op hm d hdel
    · rw [List.mem_singleton] at hm
      rw [hm] at hdel
      cases hdel
      exact fun e => hne e.symm

theorem mem_upsert_self (k v b : JSString) (l : List (JSString × JSString))
    (hn : (l.map Prod.fst).Nodup) (h : (k, b) ∈ upsert k v l) : b = v := by
  have h1 := lookupKey_of_mem k b _ (upsert_nodup k v l hn) h
  rw [lookupKey_upsert_self] at h1
  exact (Option.some.inj h1).symm

theorem tracks_save (items : List (JSString × JSString)) (ops : List StoreOp)
    (hn : (items.map Prod.fst).Nodup) (t l g c : JSString) (h : Tracks items ops) :
    Tracks (upsert (snippetKey g) (JSON.stringify (snippetRecord l g c t)) items)
      (ops ++ [StoreOp.save t l g c]) := by
  constructor
  · intro k v hm hp
    by_cases hk : k = snippetKey g
    · subst hk
      have hv := mem_upsert_self _ _ _ _ hn hm
      exact ⟨g, l, c, t, rfl, hv, (live_append_save ops t l g c g).mpr (Or.inr rfl)⟩
    · obtain ⟨f, l1, c1, t1, h1, h2, h3⟩ := h.1 k v (mem_upsert_other _ _ _ _ _ hm hk) hp
      exact ⟨f, l1, c1, t1, h1, h2, (live_append_save ops t l g c f).mpr (Or.inl h3)⟩
  · intro f hf
    rw [mem_keys_upsert]
    rcases (live_append_save ops t l g c f).mp hf with h1 | rfl
    · exact Or.inl (h.2 f h1)
    · exact Or.inr rfl

theorem tracks_delete (items : List (JSString × JSString)) (ops : List StoreOp)
    (g : JSString) (h : Tracks items ops) :
    Tracks (eraseKey (snippetKey g) items) (ops ++ [StoreOp.delete g]) := by
  constructor
  · intro k v hm hp
    simp only [eraseKey, List.mem_filter, ne_eq, decide_eq_true_eq] at hm
    obtain ⟨f, l1, c1, t1, h1, h2, h3⟩ := h.1 k v hm.1 hp
    refine ⟨f, l1, c1, t1, h1, h2, (live_append_delete ops g f).mpr ⟨h3, ?_⟩⟩
    rintro rfl
    exact hm.2 h1
  · intro f hf
    obtain ⟨h1, h2⟩ := (live_append_delete ops g f).mp hf
    rw [mem_keys_eraseKey]
    exact ⟨h.2 f h1, fun e => h2 (snippetKey_injective _ _ e)⟩

theorem tracks_runAll (ops done : List StoreOp) (s s1 : LocalStorage)
    (h : Tracks s.items done) (hrun : runAll webStorage ops s = some s1) :
    Tracks s1.items (done ++ ops) := by
  induction ops generalizing done s with
  | nil =>
    simp only [runAll, Option.some.injEq] at hrun
    subst hrun
    simpa using h
  | cons op rest ih =>
    rw [runAll] at hrun
    have happ : done ++ op :: rest = (done ++ [op]) ++ rest := by simp
    rw [happ]
    cases op with
    | save t l g c =>
      simp only [StoreOp.run] at hrun
      obtain ⟨b, s2, hs⟩ : ∃ b s2, saveSnippet webStorage t l g c s = (b, s2) := ⟨_, _, rfl⟩
      rw [hs] at hrun
      cases b with
      | false => simp at hrun
      | true =>
        obtain ⟨hi, -⟩ := saveSnippet_true s s2 t l g c hs
        exact ih _ s2 (hi ▸ tracks_save s.items done s.keysNodup t l g c h) hrun
    | delete g =>
      simp only [StoreOp.run, deleteSnippet_webStorage] at hrun
      exact ih _ _ (tracks_delete s.items done g h) hrun

theorem drop_snippetKey (f : JSString) : (snippetKey f).drop keyStem.length = f := by
  simp [snippetKey]

/-- The filenames listed from items that are all records under their own keys:
one per snippet key, in the order of the items. -/
theorem listFrom_filenames (l : List (JSString × JSString)) (acc : List SnippetInfo)
    (h : ∀ k v, (k, v) ∈ l → keyStem.isPrefixOf k = true →
      ∃ f lg c t, k = snippetKey f ∧ v = JSON.stringify (snippetRecord lg f c t)) :
    (listFrom l acc).map (fun i => i.filename) =
      acc.map (fun i => i.filename) ++
        ((l.map Prod.fst).filter fun k => keyStem.isPrefixOf k).map
          fun k => JSVal.str (k.drop keyStem.length) := by
  induction l generalizing acc with
  | nil => simp [listFrom]
  | cons p rest ih =>
    obtain ⟨k1, v1⟩ := p
    have hrest : ∀ k v, (k, v) ∈ rest → keyStem.isPrefixOf k = true →
        ∃ f lg c t, k = snippetKey f ∧ v = JSON.stringify (snippetRecord lg f c t) :=
      fun k v hm => h k v (List.mem_cons_of_mem _ hm)
    rw [listFrom]
    by_cases hp : keyStem.isPrefixOf k1 = true
    · obtain ⟨f, lg, c, t, rfl, rfl⟩ := h k1 v1 (List.mem_cons_self _ _) hp
      simp only [hp, if_true, readInfo_snippetRecord, List.map_cons, List.filter_cons]
      rw [ih _ hrest]
      simp [drop_snippetKey]
    · simp only [hp, Bool.false_eq_true, if_false, List.map_cons, List.filter_cons]
      exact ih _ hrest

theorem stemmed_key_eq (k : JSString) (h : keyStem.isPrefixOf k = true) :
    k = snippetKey (k.drop keyStem.length) := by
  rw [List.isPrefixOf_iff_prefix] at h
  obtain ⟨t, rfl⟩ := h
  simp [snippetKey]

/-- C4: starting from a store without snippet keys, after any sequence of
`saveSnippet` and `deleteSnippet` calls that all returned `true`, the filenames
`getSavedSnippets()` returns are pairwise different and are exactly the
filenames saved and not deleted afterwards. -/
theorem C4_listing_after_calls (s0 s1 : LocalStorage) (ops : List StoreOp)
    (h0 : ∀ k ∈ s0.items.map Prod.fst, keyStem.isPrefixOf k = false)
    (hrun : runAll webStorage ops s0 = some s1) :
    ((getSavedSnippets webStorage s1).map fun i => i.filename).Nodup ∧
      ∀ v, v ∈ (getSavedSnippets webStorage s1).map (fun i => i.filename) ↔
        ∃ f, v = JSVal.str f ∧ Live ops f := by
  have ht0 : Tracks s0.items [] := by
    constructor
    · intro k v hm hp
      have := h0 k (List.mem_map_of_mem Prod.fst hm)
      rw [hp] at this
      exact absurd this (by simp)
    · intro f hf
      exact absurd hf (not_live_nil f)
  have ht := tracks_runAll ops [] s0 s1 ht0 hrun
  rw [List.nil_append] at ht
  have hnames := listFrom_filenames s1.items [] (fun k v hm hp => by
    obtain ⟨f, l, c, t, h1, h2, -⟩ := ht.1 k v hm hp
    exact ⟨f, l, c, t, h1, h2⟩)
  rw [getSavedSnippets_webStorage, hnames]
  simp only [List.map_nil, List.nil_append]
  constructor
  · apply List.Nodup.map_on
    · intro a ha b hb hab
      simp only [List.mem_filter] at ha hb
      rw [stemmed_key_eq a ha.2, stemmed_key_eq b hb.2]
      simp only [JSVal.str.injEq] at hab
      rw [hab]
    · exact s1.keysNodup.filter _
  · intro v
    simp only [List.mem_map, List.mem_filter]
    constructor
    · rintro ⟨k, ⟨⟨⟨k1, v1⟩, hm, rfl⟩, hp⟩, rfl⟩
      obtain ⟨f, l, c, t, h1, -, h3⟩ := ht.1 k1 v1 hm hp
      exact ⟨f, by rw [h1, drop_snippetKey], h3⟩
    · rintro ⟨f, rfl, hf⟩
      have := ht.2 f hf
      rw [List.mem_map] at this
      obtain ⟨p, hp, hk⟩ := this
      exact ⟨snippetKey f, ⟨⟨p, hp, hk⟩, keyStem_snippetKey f⟩, by rw [drop_snippetKey]⟩

theorem numeralOK_of_cases (x : JSString) (c : Char) (t : JSString) (hx : x = c :: t)
    (hc : c = '-' ∨ c.isDigit = true)
    (h0 : parseNumber (x ++ []) = some (x, []))
    (h1 : ∀ r, parseNumber (x ++ ',' :: r) = some (x, ',' :: r))
    (h2 : ∀ r, parseNumber (x ++ ']' :: r) = some (x, ']' :: r))
    (h3 : ∀ r, parseNumber (x ++ '\x7d' :: r) = some (x, '\x7d' :: r)) : NumeralOK x := by
  refine ⟨⟨c, t, hx, hc⟩, ?_⟩
  rintro rest (rfl | ⟨d, r, rfl, rfl | rfl | rfl⟩)
  · exact h0
  · exact h1 r
  · exact h2 r
  · exact h3 r

theorem numeralOK_temperature : NumeralOK "0.7".toList :=
  numeralOK_of_cases _ '0' _ rfl (Or.inr rfl) rfl (fun _ => rfl) (fun _ => rfl) (fun _ => rfl)

theorem numeralOK_maxTokens : NumeralOK "2048".toList :=
  numeralOK_of_cases _ '2' _ rfl (Or.inr rfl) rfl (fun _ => rfl) (fun _ => rfl) (fun _ => rfl)

theorem plain_requestPayload (prompt : JSString) : Plain (requestPayload prompt) := by
  simp only [requestPayload, Plain, PlainProps, PlainItems, and_true, true_and, List.map]
  exact ⟨by decide, ⟨by decide, by decide⟩, numeralOK_temperature, numeralOK_maxTokens⟩

theorem userMessage_buildRequest (apiKey prompt : JSString) :
    userMessage (buildRequest apiKey prompt) = .ok (.str prompt) := by
  have hp := parse_stringify _ (plain_requestPayload prompt)
  simp only [userMessage, buildRequest, hp]
  rfl

theorem hasApiKey_eq_true {σ : Type} (ls : Storage σ) (s : σ) (h : hasApiKey ls s = true) :
    ∃ apiKey, getApiKey ls s = some apiKey ∧ apiKey.isEmpty = false := by
  unfold hasApiKey at h
  cases hk : getApiKey ls s with
  | none => simp [hk] at h
  | some k =>
    simp only [hk, Bool.not_eq_true'] at h
    exact ⟨k, rfl, h⟩

/-- With a key stored, `generateCodeSnippet` makes exactly one `fetch` call, with
the request built from the key and the prompt in force, and its outcome is
decided by the response. -/
theorem generateCodeSnippet_with_key {σ : Type} (N : NumberOps) (ls : Storage σ)
    (fetch : FetchRequest → Except JSError Response) (s : σ) (language : JSString)
    (prompt : Option JSString) (apiKey : JSString) (hk : getApiKey ls s = some apiKey)
    (hne : apiKey.isEmpty = false) :
    generateCodeSnippet N ls fetch s language prompt =
      ([buildRequest apiKey
          (if (prompt.getD []).isEmpty then defaultPrompt language else prompt.getD [])],
        match fetch (buildRequest apiKey
          (if (prompt.getD []).isEmpty then defaultPrompt language else prompt.getD [])) with
        | .error e => .error e
        | .ok response =>
          if !response.ok then .error (apiError N response) else readCompletion response) := by
  simp only [generateCodeSnippet, hk, hne, Bool.false_eq_true, if_false]
  cases fetch (buildRequest apiKey
      (if (prompt.getD []).isEmpty then defaultPrompt language else prompt.getD [])) with
  | error e => rfl
  | ok response => cases h : response.ok <;> simp [h]

/-- C8: when `getApiKey()` returns `null` or the empty string, `hasApiKey()` is
false and `generateCodeSnippet` rejects with the missing-key error without
calling `fetch` at all. -/
theorem C8_no_key_no_request {σ : Type} (N : NumberOps) (ls : Storage σ)
    (fetch : FetchRequest → Except JSError Response) (s : σ) (language : JSString)
    (prompt : Option JSString)
    (h : getApiKey ls s = none ∨ getApiKey ls s = some []) :
    hasApiKey ls s = false ∧
      generateCodeSnippet N ls fetch s language prompt =
        ([], .error (.error
          "No API key found. Please set your Groq API key first.".toList)) := by
  rcases h with h | h
  · exact ⟨by simp [hasApiKey, h], by simp only [generateCodeSnippet, h]; rfl⟩
  · exact ⟨by simp [hasApiKey, h], by simp only [generateCodeSnippet, h]; rfl⟩

/-- C10: with a key stored, `generateCodeSnippet` sends exactly one request, and
the user message in its body is the default sentence built from the language
when the prompt is absent or empty, and the prompt itself otherwise. -/
theorem C10_user_message {σ : Type} (N : NumberOps) (ls : Storage σ)
    (fetch : FetchRequest → Except JSError Response) (s : σ) (language : JSString)
    (prompt : Option JSString) (h : hasApiKey ls s = true) :
    ∃ request, (generateCodeSnippet N ls fetch s language prompt).1 = [request] ∧
      (prompt = none ∨ prompt = some [] →
        userMessage request = .ok (.str
          ("Generate an interesting and educational code snippet in ".toList ++ language ++
            " that demonstrates a useful concept or technique.".toList))) ∧
      (∀ p, prompt = some p → p ≠ [] → userMessage request = .ok (.str p)) := by
  obtain ⟨apiKey, hk, hne⟩ := hasApiKey_eq_true ls s h
  rw [generateCodeSnippet_with_key N ls fetch s language prompt apiKey hk hne]
  refine ⟨_, rfl, ?_, ?_⟩
  · rintro (rfl | rfl) <;> simp [userMessage_buildRequest, defaultPrompt]
  · rintro p rfl hp
    have : p.isEmpty = false := by cases p <;> simp_all
    simp [userMessage_buildRequest, this]

/-- The error for a response that is not `ok` and whose body is not `null`: the
message when it is truthy, the status text otherwise. -/
theorem apiError_truthy (N : NumberOps) (response : Response) (b err msg : JSVal)
    (hb : response.json = .ok b) (he : getProp b "error".toList = .ok err)
    (hm : getPropOpt err "message".toList = .ok msg) :
    apiError N response = .error ("API Error: ".toList ++
      toStr N (if truthy N msg then msg else .str response.statusText)) := by
  simp only [apiError, hb, he, hm]

/-- C2 fails as stated: in a store with an unreadable item under a snippet key,
two successful saves of `a.js` leave no listed entry named `a.js`. -/
theorem C2_counterexample :
    (saveSnippet webStorage "2024-05-01T10:00:00.000Z".toList "javascript".toList
        "a.js".toList "let a = 1;".toList strayStore).1 = true ∧
      (saveSnippet webStorage "2024-05-01T10:05:00.000Z".toList "typescript".toList
        "a.js".toList "let a: number = 2;".toList
        (saveSnippet webStorage "2024-05-01T10:00:00.000Z".toList "javascript".toList
          "a.js".toList "let a = 1;".toList strayStore).2).1 = true ∧
      (getSavedSnippets webStorage (savedTwice strayStore)).countP
        (SnippetInfo.named "a.js".toList) = 0 := by
  decide

/-- C2, amended, at a store holding a key and the snippet `b.py`. -/
theorem C2_save_twice_witness :
    ((savedTwice homeStore).items.filter fun p => p.1 = snippetKey "a.js".toList).length = 1 ∧
      loadSnippet webStorage "a.js".toList (savedTwice homeStore) =
        .obj [("language".toList, .str "typescript".toList),
          ("filename".toList, .str "a.js".toList),
          ("code".toList, .str "let a: number = 2;".toList),
          ("lastModified".toList, .str "2024-05-01T10:05:00.000Z".toList)] ∧
      (getSavedSnippets webStorage (savedTwice homeStore)).countP
        (SnippetInfo.named "a.js".toList) = 1 :=
  have h := C2_save_twice homeStore _ (savedTwice homeStore) "a.js".toList
    "javascript".toList "let a = 1;".toList "2024-05-01T10:00:00.000Z".toList
    "typescript".toList "let a: number = 2;".toList "2024-05-01T10:05:00.000Z".toList rfl rfl
  ⟨h.1, h.2.1, h.2.2 (by
    intro k v hm hp hne
    simp only [homeStore, LocalStorage.unbounded, List.mem_cons, Prod.mk.injEq,
      List.mem_singleton, List.not_mem_nil, or_false] at hm
    rcases hm with ⟨rfl, rfl⟩ | ⟨rfl, rfl⟩
    · exact absurd hp (by decide)
    · exact ⟨_, readInfo_snippetRecord _ _ _ _, by decide⟩)⟩

/-- C3, at a store that holds `b.py` and not `a.js`. -/
theorem C3_delete_absent_witness :
    deleteSnippet webStorage "a.js".toList homeStore = (true, homeStore) ∧
      getSavedSnippets webStorage (deleteSnippet webStorage "a.js".toList homeStore).2 =
        getSavedSnippets webStorage homeStore :=
  (C3_delete_absent homeStore "a.js".toList).1 (by decide)

/-- C4, at the example of the specification: saving `a`, `b`, `c` and deleting
`b` lists `a` and `c`. -/
theorem C4_listing_after_calls_witness :
    (getSavedSnippets webStorage abcStore).map (fun i => i.filename) =
        [.str "a".toList, .str "c".toList] ∧
      ((getSavedSnippets webStorage abcStore).map fun i => i.filename).Nodup ∧
      ∀ v, v ∈ (getSavedSnippets webStorage abcStore).map (fun i => i.filename) ↔
        ∃ f, v = JSVal.str f ∧ Live abcCalls f :=
  ⟨rfl, C4_listing_after_calls keyStore abcStore abcCalls (by decide) rfl⟩

/-- C8, at a store without a key and a remote that would answer. -/
theorem C8_no_key_no_request_witness :
    hasApiKey webStorage emptyStore = false ∧
      generateCodeSnippet sampleNumbers webStorage (fun _ => .ok okResponse) emptyStore
          "python".toList none =
        ([], .error (.error
          "No API key found. Please set your Groq API key first.".toList)) :=
  C8_no_key_no_request sampleNumbers webStorage (fun _ => .ok okResponse) emptyStore
    "python".toList none (Or.inl rfl)

/-- C9 fails as stated: a body whose message is the empty string gives the
status text, not the message; and the body `null` gives a `TypeError`, not an
error whose message starts with `API Error: `. -/
theorem C9_counterexample :
    ((generateCodeSnippet sampleNumbers webStorage (fun _ => .ok emptyMessageResponse)
        keyStore "python".toList none).2 =
          .error (.error "API Error: Unauthorized".toList) ∧
      emptyMessageResponse.json = .ok (.obj [("error".toList,
        .obj [("message".toList, .str [])])])) ∧
    ((generateCodeSnippet sampleNumbers webStorage (fun _ => .ok nullBodyResponse)
        keyStore "python".toList none).2 = .error .typeError ∧
      nullBodyResponse.json = .ok .null) := by
  exact ⟨⟨rfl, rfl⟩, rfl, rfl⟩

/-- C9, amended: with a key stored and a response that is not `ok` whose JSON
body is not `null`, `generateCodeSnippet` rejects with an error whose message is
`API Error: ` followed by `body.error.message` when that is a non-empty string,
and followed by the status text when `body.error` is absent or `null` or the
message is absent or falsy (`null`, `false`, the empty string). -/
theorem C9_api_error {σ : Type} (N : NumberOps) (ls : Storage σ)
    (fetch : FetchRequest → Except JSError Response) (s : σ) (language : JSString)
    (prompt : Option JSString) (response : Response) (b err msg : JSVal)
    (hkey : hasApiKey ls s = true) (hf : ∀ request, fetch request = .ok response)
    (hok : response.ok = false) (hb : response.json = .ok b)
    (he : getProp b "error".toList = .ok err)
    (hm : getPropOpt err "message".toList = .ok msg) :
    (∀ m, msg = .str m → m ≠ [] →
      (generateCodeSnippet N ls fetch s language prompt).2 =
        .error (.error ("API Error: ".toList ++ m))) ∧
    (truthy N msg = false →
      (generateCodeSnippet N ls fetch s language prompt).2 =
        .error (.error ("API Error: ".toList ++ response.statusText))) := by
  obtain ⟨apiKey, hk, hne⟩ := hasApiKey_eq_true ls s hkey
  have hgen : (generateCodeSnippet N ls fetch s language prompt).2 =
      .error (.error ("API Error: ".toList ++
        toStr N (if truthy N msg then msg else .str response.statusText))) := by
    rw [generateCodeSnippet_with_key N ls fetch s language prompt apiKey hk hne]
    simp only [hf, hok, Bool.not_false, if_true, apiError_truthy N response b err msg hb he hm]
  constructor
  · rintro m rfl hmne
    have : truthy N (.str m) = true := by cases m <;> simp_all [truthy]
    rw [hgen, this]
    simp [toStr]
  · intro hfalsy
    rw [hgen, hfalsy]
    simp [toStr]

/-- C9, amended, at the example of the specification: the body
`{"error":{"message":"bad key"}}` yields `API Error: bad key`. -/
theorem C9_api_error_witness :
    (generateCodeSnippet sampleNumbers webStorage (fun _ => .ok badKeyResponse) keyStore
        "python".toList none).2 = .error (.error "API Error: bad key".toList) :=
  (C9_api_error sampleNumbers webStorage (fun _ => .ok badKeyResponse) keyStore
    "python".toList none badKeyResponse
    (.obj [("error".toList, .obj [("message".toList, .str "bad key".toList)])])
    (.obj [("message".toList, .str "bad key".toList)]) (.str "bad key".toList)
    rfl (fun _ => rfl) rfl rfl rfl rfl).1 "bad key".toList rfl (by decide)

/-- C10, at a stored key, the language `python` and no prompt. -/
theorem C10_user_message_witness :
    ∃ request, (generateCodeSnippet sampleNumbers webStorage (fun _ => .ok okResponse)
        keyStore "python".toList none).1 = [request] ∧
      userMessage request = .ok (.str ("Generate an interesting and educational code " ++
        "snippet in python that demonstrates a useful concept or technique.").toList) := by
  obtain ⟨request, h1, h2, -⟩ := C10_user_message sampleNumbers webStorage
    (fun _ => .ok okResponse) keyStore "python".toList none rfl
  exact ⟨request, h1, h2 (Or.inl rfl)⟩

/-! ## Absent, unreadable and raising storage -/

theorem parse_nil : JSON.parse [] = .error .syntaxError := rfl

/-- Loading a filename whose key holds a text that `JSON.parse` accepts gives
the value `JSON.parse` returns. -/
theorem loadSnippet_of_parse {σ : Type} (ls : Storage σ) (s : σ) (f d : JSString) (v : JSVal)
    (hg : ls.getItem s (snippetKey f) = .ok (some d)) (hp : JSON.parse d = .ok v) :
    loadSnippet ls f s = v := by
  have hne : d ≠ [] := by
    rintro rfl
    rw [parse_nil] at hp
    cases hp
  simp only [loadSnippet, hg, hp, hne, ne_eq, not_false_eq_true, if_true]

/-- C11 fails as stated: a stored text that parses is returned as the value it
denotes, with no check that the value is a snippet record.  With the text `5`
under the key of `f`, `loadSnippet("f")` returns the number 5 and not `null`;
with the text `{"x":1}` under the key of `g`, `loadSnippet("g")` returns that
object, which has no `code`, and not `null`. -/
theorem C11_counterexample :
    webStorage.getItem foreignStore (snippetKey "f".toList) = .ok (some "5".toList) ∧
    JSON.parse "5".toList = .ok (.num "5".toList) ∧
    loadSnippet webStorage "f".toList foreignStore = .num "5".toList ∧
    loadSnippet webStorage "f".toList foreignStore ≠ .null ∧
    webStorage.getItem foreignStore (snippetKey "g".toList) =
      .ok (some "\x7b\"x\":1\x7d".toList) ∧
    loadSnippet webStorage "g".toList foreignStore = .obj [("x".toList, .num "1".toList)] ∧
    loadSnippet webStorage "g".toList foreignStore ≠ .null ∧
    getProp (loadSnippet webStorage "g".toList foreignStore) "code".toList = .ok .undefined := by
  refine ⟨rfl, rfl, rfl, ?_, rfl, rfl, ?_, rfl⟩
  · rw [show loadSnippet webStorage "f".toList foreignStore = .num "5".toList from rfl]
    intro h
    cases h
  · rw [show loadSnippet webStorage "g".toList foreignStore =
      .obj [("x".toList, .num "1".toList)] from rfl]
    intro h
    cases h

/-- C11, amended: `loadSnippet(f)` returns `null` when nothing is stored under
the key of `f`; it returns `null`, and does not raise, when the text stored
there is not parseable JSON; and when the text stored there is a serialized
snippet record, as `saveSnippet` writes it, it returns the full record, with
its `language`, `filename`, `code` and `lastModified`. -/
theorem C11_load_absent_or_malformed {σ : Type} (ls : Storage σ) (s : σ) (f : JSString) :
    (ls.getItem s (snippetKey f) = .ok none → loadSnippet ls f s = .null) ∧
    (∀ d e, ls.getItem s (snippetKey f) = .ok (some d) → JSON.parse d = .error e →
      loadSnippet ls f s = .null) ∧
    (∀ l g c t, ls.getItem s (snippetKey f) =
        .ok (some (JSON.stringify (snippetRecord l g c t))) →
      loadSnippet ls f s =
        .obj [("language".toList, .str l), ("filename".toList, .str g),
          ("code".toList, .str c), ("lastModified".toList, .str t)]) := by
  refine ⟨?_, ?_, ?_⟩
  · intro hg
    simp only [loadSnippet, hg]
  · intro d e hg hp
    simp only [loadSnippet, hg, hp]
    split <;> rfl
  · intro l g c t hg
    exact loadSnippet_of_parse ls s f _ _ hg (parse_stringify _ (plain_snippetRecord l g c t))

/-- C11 as amended, at a store whose item under the key of `old` is not JSON
and which holds nothing under the key of `a.js`, and at a store that holds the
record of `b.py`. -/
theorem C11_load_absent_or_malformed_witness :
    loadSnippet webStorage "old".toList strayStore = .null ∧
      loadSnippet webStorage "a.js".toList strayStore = .null ∧
      loadSnippet webStorage "b.py".toList homeStore =
        .obj [("language".toList, .str "python".toList), ("filename".toList, .str "b.py".toList),
          ("code".toList, .str "print(2)".toList),
          ("lastModified".toList, .str "2024-04-30T08:00:00.000Z".toList)] :=
  ⟨(C11_load_absent_or_malformed webStorage strayStore "old".toList).2.1
      "not json".toList .syntaxError rfl rfl,
    (C11_load_absent_or_malformed webStorage strayStore "a.js".toList).1 rfl,
    (C11_load_absent_or_malformed webStorage homeStore "b.py".toList).2.2
      "python".toList "b.py".toList "print(2)".toList "2024-04-30T08:00:00.000Z".toList rfl⟩

theorem saveSnippet_fst {σ : Type} (ls : Storage σ) (s : σ)
    (now language filename code : JSString) :
    (saveSnippet ls now language filename code s).1 = true ↔
      ∃ s1, ls.setItem s (snippetKey filename)
        (JSON.stringify (snippetRecord language filename code now)) = .ok s1 := by
  unfold saveSnippet
  cases h : ls.setItem s (snippetKey filename)
      (JSON.stringify (snippetRecord language filename code now)) with
  | error e => simp [h]
  | ok s1 => simp [h]

theorem deleteSnippet_fst {σ : Type} (ls : Storage σ) (s : σ) (filename : JSString) :
    (deleteSnippet ls filename s).1 = true ↔
      ∃ s1, ls.removeItem s (snippetKey filename) = .ok s1 := by
  unfold deleteSnippet
  cases h : ls.removeItem s (snippetKey filename) with
  | error e => simp [h]
  | ok s1 => simp [h]

/-- An exception in the middle of the listing loop ends it with the array as it
stands. -/
theorem listLoop_raise {σ : Type} (ls : Storage σ) (s : σ) (fuel i n : Nat)
    (acc : List SnippetInfo) (e : JSError) (hlen : ls.length s = .ok n) (hi : i < n)
    (h : listStep ls s i acc = .error e) : listLoop ls s (fuel + 1) i acc = acc := by
  simp only [listLoop, hlen, hi, if_true, h]

/-- C12: when the underlying storage raises, no store operation raises:
`saveSnippet` and `deleteSnippet` return `false` and leave the store alone,
`loadSnippet` returns `null`, `getSavedSnippets` returns the array built so far
(empty when `length` raises); and `saveSnippet` / `deleteSnippet` return `true`
exactly when the write / removal did not raise. -/
theorem C12_storage_exceptions {σ : Type} (ls : Storage σ) (s : σ)
    (now language filename code : JSString) :
    (∀ e, ls.setItem s (snippetKey filename)
        (JSON.stringify (snippetRecord language filename code now)) = .error e →
      saveSnippet ls now language filename code s = (false, s)) ∧
    ((saveSnippet ls now language filename code s).1 = true ↔
      ∃ s1, ls.setItem s (snippetKey filename)
        (JSON.stringify (snippetRecord language filename code now)) = .ok s1) ∧
    (∀ e, ls.removeItem s (snippetKey filename) = .error e →
      deleteSnippet ls filename s = (false, s)) ∧
    ((deleteSnippet ls filename s).1 = true ↔
      ∃ s1, ls.removeItem s (snippetKey filename) = .ok s1) ∧
    (∀ e, ls.getItem s (snippetKey filename) = .error e →
      loadSnippet ls filename s = .null) ∧
    (∀ e, ls.length s = .error e → getSavedSnippets ls s = []) ∧
    (∀ fuel i n acc e, ls.length s = .ok n → i < n → ls.key s i = .error e →
      listLoop ls s (fuel + 1) i acc = acc) ∧
    (∀ fuel i n acc k e, ls.length s = .ok n → i < n → ls.key s i = .ok (some k) →
      keyStem.isPrefixOf k = true → ls.getItem s k = .error e →
      listLoop ls s (fuel + 1) i acc = acc) := by
  refine ⟨?_, saveSnippet_fst ls s now language filename code, ?_,
    deleteSnippet_fst ls s filename, ?_, ?_, ?_, ?_⟩
  · intro e h
    simp only [saveSnippet, h]
  · intro e h
    simp only [deleteSnippet, h]
  · intro e h
    simp only [loadSnippet, h]
  · intro e h
    simp only [getSavedSnippets, h]
  · intro fuel i n acc e hlen hi hk
    exact listLoop_raise ls s fuel i n acc e hlen hi (by simp only [listStep, hk])
  · intro fuel i n acc k e hlen hi hk hp hg
    exact listLoop_raise ls s fuel i n acc e hlen hi
      (by simp only [listStep, hk, hp, if_true, hg])

/-- C12, at a storage that raises on every call and at a store too small for the
record. -/
theorem C12_storage_exceptions_witness :
    (saveSnippet brokenStorage "2024-05-01T10:00:00.000Z".toList "css".toList "a".toList
        "b".toList () = (false, ()) ∧
      deleteSnippet brokenStorage "a".toList () = (false, ()) ∧
      loadSnippet brokenStorage "a".toList () = .null ∧
      (getSavedSnippets brokenStorage ()).length = 0) ∧
    saveSnippet webStorage "2024-05-01T10:00:00.000Z".toList "css".toList "a".toList
        "b".toList tinyStore = (false, tinyStore) :=
  have h := C12_storage_exceptions brokenStorage () "2024-05-01T10:00:00.000Z".toList
    "css".toList "a".toList "b".toList
  have h2 := C12_storage_exceptions webStorage tinyStore "2024-05-01T10:00:00.000Z".toList
    "css".toList "a".toList "b".toList
  ⟨⟨h.1 _ rfl, h.2.2.1 _ rfl, h.2.2.2.2.1 _ rfl, by rw [h.2.2.2.2.2.1 _ rfl]; rfl⟩,
    h2.1 _ rfl⟩

/-! ## The stored credential and the frame of the store -/

/-- What a successful `saveApiKey` leaves in a conforming store. -/
theorem saveApiKey_true (s s1 : LocalStorage) (k : JSString)
    (h : saveApiKey webStorage k s = (true, s1)) :
    s1.items = upsert API_KEY_STORAGE_KEY k s.items ∧ s1.refuses = s.refuses := by
  simp only [saveApiKey, webStorage, LocalStorage.setItem] at h
  split_ifs at h with hq
  · simp at h
  · simp only [Prod.mk.injEq, true_and] at h
    subst h
    exact ⟨rfl, rfl⟩

theorem hasApiKey_iff {σ : Type} (ls : Storage σ) (s : σ) :
    hasApiKey ls s = true ↔ ∃ k, getApiKey ls s = some k ∧ k ≠ [] := by
  unfold hasApiKey
  cases h : getApiKey ls s with
  | none => simp
  | some k => cases k <;> simp

/-- C14: after `saveApiKey(k)` returns `true`, `getApiKey()` returns `k`, the
store holds exactly one item under the credential key (so a later
`saveApiKey` replaces the key), and `hasApiKey()` is `true` exactly when `k` is
not empty; in every store `hasApiKey()` is `true` exactly when `getApiKey()`
returns a non-empty string. -/
theorem C14_api_key (s s1 : LocalStorage) (k : JSString)
    (h : saveApiKey webStorage k s = (true, s1)) :
    getApiKey webStorage s1 = some k ∧
      (s1.items.filter fun p => p.1 = API_KEY_STORAGE_KEY).length = 1 ∧
      (hasApiKey webStorage s1 = true ↔ k ≠ []) ∧
      (∀ k2 s2, saveApiKey webStorage k2 s1 = (true, s2) →
        getApiKey webStorage s2 = some k2 ∧
          (s2.items.filter fun p => p.1 = API_KEY_STORAGE_KEY).length = 1) ∧
      (∀ (t : LocalStorage), hasApiKey webStorage t = true ↔
        ∃ key, getApiKey webStorage t = some key ∧ key ≠ []) := by
  have key : ∀ (a a1 : LocalStorage) (x : JSString), saveApiKey webStorage x a = (true, a1) →
      getApiKey webStorage a1 = some x ∧
        (a1.items.filter fun p => p.1 = API_KEY_STORAGE_KEY).length = 1 := by
    intro a a1 x hx
    obtain ⟨hi, -⟩ := saveApiKey_true a a1 x hx
    constructor
    · simp only [getApiKey, webStorage, LocalStorage.getItem, hi, lookupKey_upsert_self]
    · apply length_filter_key a1.items a1.keysNodup
      rw [hi, mem_keys_upsert]
      exact Or.inr rfl
  obtain ⟨h1, h2⟩ := key s s1 k h
  refine ⟨h1, h2, ?_, fun k2 s2 h3 => key s1 s2 k2 h3, fun t => hasApiKey_iff webStorage t⟩
  rw [hasApiKey_iff, h1]
  constructor
  · rintro ⟨x, hx, hne⟩
    cases hx
    exact hne
  · intro hne
    exact ⟨k, rfl, hne⟩

/-- C14, at a store that already holds a key. -/
theorem C14_api_key_witness :
    getApiKey webStorage (saveApiKey webStorage "gsk_new".toList keyStore).2 =
        some "gsk_new".toList ∧
      ((saveApiKey webStorage "gsk_new".toList keyStore).2.items.filter
        fun p => p.1 = API_KEY_STORAGE_KEY).length = 1 ∧
      hasApiKey webStorage (saveApiKey webStorage "gsk_new".toList keyStore).2 = true :=
  have h := C14_api_key keyStore _ "gsk_new".toList rfl
  ⟨h.1, h.2.1, h.2.2.1.mpr (by decide)⟩

theorem snippetKey_ne_apiKey (f : JSString) : snippetKey f ≠ API_KEY_STORAGE_KEY := by
  simp [snippetKey, keyStem, API_KEY_STORAGE_KEY]

theorem lookupKey_eraseKey_other (k a : JSString) (l : List (JSString × JSString))
    (h : a ≠ k) : lookupKey a (eraseKey k l) = lookupKey a l := by
  induction l with
  | nil => rfl
  | cons p rest ih =>
    obtain ⟨k1, v1⟩ := p
    by_cases h1 : k1 = k
    · subst h1
      have : eraseKey k1 ((k1, v1) :: rest) = eraseKey k1 rest := by
        simp [eraseKey, List.filter_cons]
      rw [this, ih]
      simp [lookupKey, h.symm]
    · have : eraseKey k ((k1, v1) :: rest) = (k1, v1) :: eraseKey k rest := by
        simp [eraseKey, List.filter_cons, h1]
      rw [this]
      simp only [lookupKey, ih]

/-- Writing under one key of a conforming store changes no other key. -/
theorem getItem_setItem_other (s s1 : LocalStorage) (k v a : JSString)
    (h : s.setItem k v = .ok s1) (hne : a ≠ k) : s1.getItem a = s.getItem a := by
  simp only [LocalStorage.setItem] at h
  split_ifs at h with hq
  simp only [Except.ok.injEq] at h
  subst h
  exact lookupKey_upsert_other k v a s.items hne

theorem getItem_removeItem_other (s : LocalStorage) (k a : JSString) (hne : a ≠ k) :
    (s.removeItem k).getItem a = s.getItem a :=
  lookupKey_eraseKey_other k a s.items hne

theorem loadSnippet_congr (s t : LocalStorage) (g : JSString)
    (h : t.getItem (snippetKey g) = s.getItem (snippetKey g)) :
    loadSnippet webStorage g t = loadSnippet webStorage g s := by
  simp only [loadSnippet, webStorage, h]

theorem getApiKey_congr (s t : LocalStorage)
    (h : t.getItem API_KEY_STORAGE_KEY = s.getItem API_KEY_STORAGE_KEY) :
    getApiKey webStorage t = getApiKey webStorage s := by
  simp only [getApiKey, webStorage, h]

/-- Writing under a key that is no snippet key leaves the listing as it was. -/
theorem listFrom_upsert_other (k v : JSString) (l : List (JSString × JSString))
    (acc : List SnippetInfo) (hk : keyStem.isPrefixOf k = false) :
    listFrom (upsert k v l) acc = listFrom l acc := by
  induction l generalizing acc with
  | nil => simp [upsert, listFrom, hk]
  | cons p rest ih =>
    obtain ⟨k1, v1⟩ := p
    by_cases h1 : k1 = k
    · subst h1
      simp [upsert, listFrom, hk]
    · simp only [upsert, if_neg h1, listFrom]
      split_ifs
      · cases readInfo (some v1) with
        | error e => rfl
        | ok info => exact ih _
      · exact ih _

/-- A `saveSnippet` call, successful or not, changes no key but its own. -/
theorem getItem_saveSnippet_other (s : LocalStorage) (now language f code a : JSString)
    (hne : a ≠ snippetKey f) :
    (saveSnippet webStorage now language f code s).2.getItem a = s.getItem a := by
  simp only [saveSnippet, webStorage]
  cases h : s.setItem (snippetKey f) (JSON.stringify (snippetRecord language f code now)) with
  | error e => rfl
  | ok s1 => exact getItem_setItem_other s s1 _ _ a h hne

/-- A `saveApiKey` call, successful or not, changes no key but the credential
key. -/
theorem getItem_saveApiKey_other (s : LocalStorage) (apiKey a : JSString)
    (hne : a ≠ API_KEY_STORAGE_KEY) :
    (saveApiKey webStorage apiKey s).2.getItem a = s.getItem a := by
  simp only [saveApiKey, webStorage]
  cases h : s.setItem API_KEY_STORAGE_KEY apiKey with
  | error e => rfl
  | ok s1 => exact getItem_setItem_other s s1 _ _ a h hne

theorem getSavedSnippets_saveApiKey (s : LocalStorage) (apiKey : JSString) :
    getSavedSnippets webStorage (saveApiKey webStorage apiKey s).2 =
      getSavedSnippets webStorage s := by
  simp only [saveApiKey, webStorage]
  cases h : s.setItem API_KEY_STORAGE_KEY apiKey with
  | error e => rfl
  | ok s1 =>
    have hi : s1.items = upsert API_KEY_STORAGE_KEY apiKey s.items := by
      simp only [LocalStorage.setItem] at h
      split_ifs at h with hq
      simp only [Except.ok.injEq] at h
      subst h
      rfl
    have := getSavedSnippets_webStorage s1
    simp only [webStorage] at this
    rw [this, hi, listFrom_upsert_other _ _ _ _ (by decide)]
    exact (getSavedSnippets_webStorage s).symm

/-- C15: for filenames `g ≠ f`, `saveSnippet` under `f` and `deleteSnippet(f)`
leave `loadSnippet(g)` and `getApiKey()` as they were, and `saveApiKey` leaves
every `loadSnippet` result and the `getSavedSnippets()` result as they were;
the key of a filename determines the filename and is never the credential
key. -/
theorem C15_frame (s : LocalStorage) (f g now language code apiKey : JSString)
    (hne : g ≠ f) :
    loadSnippet webStorage g (saveSnippet webStorage now language f code s).2 =
        loadSnippet webStorage g s ∧
      getApiKey webStorage (saveSnippet webStorage now language f code s).2 =
        getApiKey webStorage s ∧
      loadSnippet webStorage g (deleteSnippet webStorage f s).2 = loadSnippet webStorage g s ∧
      getApiKey webStorage (deleteSnippet webStorage f s).2 = getApiKey webStorage s ∧
      (∀ h, loadSnippet webStorage h (saveApiKey webStorage apiKey s).2 =
        loadSnippet webStorage h s) ∧
      getSavedSnippets webStorage (saveApiKey webStorage apiKey s).2 =
        getSavedSnippets webStorage s ∧
      (∀ a b, snippetKey a = snippetKey b → a = b) ∧
      (∀ a, snippetKey a ≠ API_KEY_STORAGE_KEY) := by
  have hkey : snippetKey g ≠ snippetKey f := fun h => hne (snippetKey_injective _ _ h)
  have hcred : API_KEY_STORAGE_KEY ≠ snippetKey f := fun h => snippetKey_ne_apiKey f h.symm
  refine ⟨?_, ?_, ?_, ?_, ?_, getSavedSnippets_saveApiKey s apiKey, snippetKey_injective,
    snippetKey_ne_apiKey⟩
  · exact loadSnippet_congr _ _ g (getItem_saveSnippet_other s now language f code _ hkey)
  · exact getApiKey_congr _ _ (getItem_saveSnippet_other s now language f code _ hcred)
  · rw [deleteSnippet_webStorage]
    exact loadSnippet_congr _ _ g (getItem_removeItem_other s _ _ hkey)
  · rw [deleteSnippet_webStorage]
    exact getApiKey_congr _ _ (getItem_removeItem_other s _ _ hcred)
  · intro h
    exact loadSnippet_congr _ _ h
      (getItem_saveApiKey_other s apiKey _ (snippetKey_ne_apiKey h))

/-- C15, at a store holding a key and the snippet `b.py`: saving and deleting
`a.js` and replacing the key. -/
theorem C15_frame_witness :
    loadSnippet webStorage "b.py".toList (savedTwice homeStore) =
        loadSnippet webStorage "b.py".toList
          (saveSnippet webStorage "2024-05-01T10:00:00.000Z".toList "javascript".toList
            "a.js".toList "let a = 1;".toList homeStore).2 ∧
      getApiKey webStorage (deleteSnippet webStorage "a.js".toList homeStore).2 =
        getApiKey webStorage homeStore ∧
      getSavedSnippets webStorage (saveApiKey webStorage "gsk_new".toList homeStore).2 =
        getSavedSnippets webStorage homeStore :=
  ⟨(C15_frame _ "a.js".toList "b.py".toList "2024-05-01T10:05:00.000Z".toList
      "typescript".toList "let a: number = 2;".toList [] (by decide)).1,
    (C15_frame homeStore "a.js".toList "b.py".toList [] [] [] [] (by decide)).2.2.2.1,
    (C15_frame homeStore "a.js".toList "b.py".toList [] [] [] "gsk_new".toList
      (by decide)).2.2.2.2.2.1⟩

/-! ## The listing before an unreadable item -/

theorem map_ne_undefined {α : Type} (x : Option α) (f : α → JSVal × JSString)
    (r : JSString) (hf : ∀ a, (f a).1 ≠ .undefined) : x.map f ≠ some (.undefined, r) := by
  cases x with
  | none => simp
  | some a =>
    intro h
    simp only [Option.map_some', Option.some.injEq] at h
    exact hf a (by rw [h])

theorem parseValue_ne_undefined (n : Nat) (s r : JSString) (v : JSVal)
    (h : parseValue n s = some (v, r)) : v ≠ .undefined := by
  rintro rfl
  rw [parseValue.eq_def] at h
  cases n with
  | zero => simp at h
  | succ m =>
    cases s with
    | nil => simp at h
    | cons c cs =>
      simp only at h
      split_ifs at h
      · split at h
        · simp at h
        · exact map_ne_undefined _ _ r (fun a => by simp [mkObject]) h
      · split at h
        · simp at h
        · exact map_ne_undefined _ _ r (fun a => by simp) h
      all_goals exact map_ne_undefined _ _ r (fun a => by simp) h

theorem parse_ne_undefined (text : JSString) : JSON.parse text ≠ .ok .undefined := by
  unfold JSON.parse
  split
  · rename_i v r h
    split
    · intro hc
      simp only [Except.ok.injEq] at hc
      exact parseValue_ne_undefined _ _ _ _ h hc
    · simp
  · simp

theorem getProp_isOk (data : JSVal) (key : JSString) (h1 : data ≠ .undefined)
    (h2 : data ≠ .null) : ∃ r, getProp data key = .ok r := by
  cases data with
  | undefined => exact absurd rfl h1
  | null => exact absurd rfl h2
  | bool b => exact ⟨_, rfl⟩
  | num x => exact ⟨_, rfl⟩
  | str x =>
    simp only [getProp]
    split_ifs
    · exact ⟨_, rfl⟩
    · split <;> exact ⟨_, rfl⟩
  | arr xs =>
    simp only [getProp]
    split_ifs
    · exact ⟨_, rfl⟩
    · split <;> exact ⟨_, rfl⟩
  | obj ps => exact ⟨_, rfl⟩

/-- Reading a stored text fails exactly when it is not JSON or denotes `null`. -/
theorem readInfo_error_iff (v : JSString) :
    (∃ e, readInfo (some v) = .error e) ↔
      (∃ e, JSON.parse v = .error e) ∨ JSON.parse v = .ok .null := by
  simp only [readInfo, Option.getD_some]
  cases h : JSON.parse v with
  | error e => simp
  | ok data =>
    by_cases hn : data = .null
    · subst hn
      simp [getProp]
    · have hu : data ≠ .undefined := by
        rintro rfl
        exact parse_ne_undefined v h
      obtain ⟨a, ha⟩ := getProp_isOk data "filename".toList hu hn
      obtain ⟨b, hb⟩ := getProp_isOk data "language".toList hu hn
      obtain ⟨c, hc⟩ := getProp_isOk data "lastModified".toList hu hn
      dsimp only
      rw [ha, hb, hc]
      simp [hn]

/-- An entry that was read holds the three properties of the value its text
denotes. -/
theorem readInfo_ok (v : JSString) (info : SnippetInfo) (h : readInfo (some v) = .ok info) :
    ∃ data, JSON.parse v = .ok data ∧
      getProp data "filename".toList = .ok info.filename ∧
      getProp data "language".toList = .ok info.language ∧
      getProp data "lastModified".toList = .ok info.lastModified := by
  simp only [readInfo, Option.getD_some] at h
  cases hp : JSON.parse v with
  | error e => simp [hp] at h
  | ok data =>
    refine ⟨data, rfl, ?_⟩
    simp only [hp] at h
    split at h
    · rename_i f l m hf hl hm
      simp only [Except.ok.injEq] at h
      subst h
      exact ⟨hf, hl, hm⟩
    · simp at h

/-- The listing of items that end, after readable ones, in an unreadable item
under a snippet key: the entries of the readable ones. -/
theorem listFrom_stops (pre post : List (JSString × JSString)) (k v : JSString)
    (acc : List SnippetInfo) (hk : keyStem.isPrefixOf k = true)
    (hbad : ∃ e, readInfo (some v) = .error e)
    (hpre : ∀ k1 v1, (k1, v1) ∈ pre → keyStem.isPrefixOf k1 = true →
      ∃ info, readInfo (some v1) = .ok info) :
    listFrom (pre ++ (k, v) :: post) acc =
      acc ++ pre.filterMap fun p =>
        if keyStem.isPrefixOf p.1 then (readInfo (some p.2)).toOption else none := by
  induction pre generalizing acc with
  | nil =>
    obtain ⟨e, he⟩ := hbad
    simp [listFrom, hk, he]
  | cons p rest ih =>
    obtain ⟨k1, v1⟩ := p
    have hrest : ∀ k2 v2, (k2, v2) ∈ rest → keyStem.isPrefixOf k2 = true →
        ∃ info, readInfo (some v2) = .ok info :=
      fun k2 v2 hm => hpre k2 v2 (List.mem_cons_of_mem _ hm)
    rw [List.cons_append, listFrom]
    by_cases hp : keyStem.isPrefixOf k1 = true
    · obtain ⟨info, hi⟩ := hpre k1 v1 (List.mem_cons_self _ _) hp
      have hhead : (fun p : JSString × JSString => if keyStem.isPrefixOf p.1 then
          (readInfo (some p.2)).toOption else none) (k1, v1) = some info := by
        simp only [hp, if_true, hi]
        rfl
      rw [List.filterMap_cons_some
        (f := fun p : JSString × JSString => if keyStem.isPrefixOf p.1 then
          (readInfo (some p.2)).toOption else none) hhead]
      simp only [hp, if_true, hi]
      rw [ih _ hrest]
      simp
    · simp only [hp, Bool.false_eq_true, if_false, List.filterMap_cons]
      exact ih _ hrest

/-- C16 fails as stated: with a snippet item whose text is the JSON text `null`
enumerated first, the first item that is not parseable JSON is the third, yet
the listing is empty and so omits the readable snippet `b.py` enumerated
before it. -/
theorem C16_counterexample :
    nullItemStore.items.map Prod.fst =
        ["code_widget_a".toList, "code_widget_b.py".toList, "code_widget_c".toList] ∧
      JSON.parse "null".toList = .ok .null ∧
      readInfo (nullItemStore.getItem "code_widget_b.py".toList) =
        .ok ⟨.str "b.py".toList, .str "python".toList,
          .str "2024-04-30T08:00:00.000Z".toList⟩ ∧
      JSON.parse "not json".toList = .error .syntaxError ∧
      (getSavedSnippets webStorage nullItemStore).length = 0 :=
  ⟨rfl, rfl, rfl, rfl, rfl⟩

/-- C16, amended: when the items of the store are `pre`, then an item under a
snippet key whose text is not parseable JSON or denotes `null`, then `post`, and
every snippet item of `pre` is readable (parseable and not `null`),
`getSavedSnippets()` returns exactly the entries of the snippet items of `pre`,
one for each and in their order, whatever `post` holds; each entry holds the
`filename`, `language` and `lastModified` of the value its text denotes. -/
theorem C16_listing_stops (s : LocalStorage) (pre post : List (JSString × JSString))
    (k v : JSString) (hitems : s.items = pre ++ (k, v) :: post)
    (hk : keyStem.isPrefixOf k = true)
    (hbad : (∃ e, JSON.parse v = .error e) ∨ JSON.parse v = .ok .null)
    (hpre : ∀ k1 v1, (k1, v1) ∈ pre → keyStem.isPrefixOf k1 = true →
      ∃ data, JSON.parse v1 = .ok data ∧ data ≠ .null) :
    getSavedSnippets webStorage s =
        (pre.filterMap fun p =>
          if keyStem.isPrefixOf p.1 then (readInfo (some p.2)).toOption else none) ∧
      (getSavedSnippets webStorage s).length =
        (pre.filter fun p => keyStem.isPrefixOf p.1).length ∧
      ∀ info ∈ getSavedSnippets webStorage s, ∃ k1 v1 data,
        (k1, v1) ∈ pre ∧ keyStem.isPrefixOf k1 = true ∧ JSON.parse v1 = .ok data ∧
          getProp data "filename".toList = .ok info.filename ∧
          getProp data "language".toList = .ok info.language ∧
          getProp data "lastModified".toList = .ok info.lastModified := by
  have hread : ∀ k1 v1, (k1, v1) ∈ pre → keyStem.isPrefixOf k1 = true →
      ∃ info, readInfo (some v1) = .ok info := by
    intro k1 v1 hm hp
    obtain ⟨data, hd, hn⟩ := hpre k1 v1 hm hp
    cases hr : readInfo (some v1) with
    | ok info => exact ⟨info, rfl⟩
    | error e =>
      rcases (readInfo_error_iff v1).mp ⟨e, hr⟩ with ⟨e1, he1⟩ | hnull
      · rw [hd] at he1
        cases he1
      · rw [hd] at hnull
        simp only [Except.ok.injEq] at hnull
        exact absurd hnull hn
  have hlist := listFrom_stops pre post k v [] hk ((readInfo_error_iff v).mpr hbad) hread
  rw [List.nil_append] at hlist
  have hget : getSavedSnippets webStorage s =
      pre.filterMap fun p =>
        if keyStem.isPrefixOf p.1 then (readInfo (some p.2)).toOption else none := by
    rw [getSavedSnippets_webStorage, hitems, hlist]
  refine ⟨hget, ?_, ?_⟩
  · rw [hget]
    clear hlist hget hitems hpre
    induction pre with
    | nil => rfl
    | cons p rest ih =>
      obtain ⟨k1, v1⟩ := p
      have hrest : ∀ k2 v2, (k2, v2) ∈ rest → keyStem.isPrefixOf k2 = true →
          ∃ info, readInfo (some v2) = .ok info :=
        fun k2 v2 hm => hread k2 v2 (List.mem_cons_of_mem _ hm)
      by_cases hp : keyStem.isPrefixOf k1 = true
      · obtain ⟨info, hi⟩ := hread k1 v1 (List.mem_cons_self _ _) hp
        have hhead : (fun p : JSString × JSString => if keyStem.isPrefixOf p.1 then
            (readInfo (some p.2)).toOption else none) (k1, v1) = some info := by
          simp only [hp, if_true, hi]
          rfl
        rw [List.filterMap_cons_some
          (f := fun p : JSString × JSString => if keyStem.isPrefixOf p.1 then
            (readInfo (some p.2)).toOption else none) hhead]
        simp only [List.filter_cons, hp, if_true, List.length_cons, ih hrest]
      · simp only [List.filterMap_cons, List.filter_cons, hp, Bool.false_eq_true, if_false,
          ih hrest]
  · intro info hinfo
    rw [hget, List.mem_filterMap] at hinfo
    obtain ⟨⟨k1, v1⟩, hm, hsome⟩ := hinfo
    by_cases hp : keyStem.isPrefixOf k1 = true
    · simp only [hp, if_true] at hsome
      have hr : readInfo (some v1) = .ok info := by
        cases hr : readInfo (some v1) with
        | ok i =>
          rw [hr] at hsome
          simp only [Except.toOption, Option.some.injEq] at hsome
          rw [hsome]
        | error e =>
          rw [hr] at hsome
          simp [Except.toOption] at hsome
      obtain ⟨data, hd, h1, h2, h3⟩ := readInfo_ok v1 info hr
      exact ⟨k1, v1, data, hm, hp, hd, h1, h2, h3⟩
    · simp [hp] at hsome

/-- C16, amended, at a store holding `b.py`, an API key, an item that is not
JSON, and `d.js`: only `b.py` is listed. -/
theorem C16_listing_stops_witness :
    (getSavedSnippets webStorage brokenMiddleStore).map (fun i => i.filename) =
        [.str "b.py".toList] ∧
      (getSavedSnippets webStorage brokenMiddleStore).length = 1 :=
  have h := C16_listing_stops brokenMiddleStore
    [(snippetKey "b.py".toList,
      JSON.stringify (snippetRecord "python".toList "b.py".toList "print(2)".toList
        "2024-04-30T08:00:00.000Z".toList)),
     (API_KEY_STORAGE_KEY, "gsk_test".toList)]
    [(snippetKey "d.js".toList,
      JSON.stringify (snippetRecord "javascript".toList "d.js".toList "let d;".toList
        "2024-04-30T09:00:00.000Z".toList))]
    "code_widget_c".toList "not json".toList rfl rfl (Or.inl ⟨_, rfl⟩)
    (by
      intro k1 v1 hm hp
      simp only [List.mem_cons, Prod.mk.injEq, List.mem_singleton, List.not_mem_nil,
        or_false] at hm
      rcases hm with ⟨rfl, rfl⟩ | ⟨rfl, rfl⟩
      · exact ⟨_, parse_stringify _ (plain_snippetRecord _ _ _ _), by simp [snippetRecord]⟩
      · exact absurd hp (by decide))
  ⟨by rw [h.1]; rfl, h.2.1⟩

/-! ## Idempotence of the extraction step -/

theorem trimStart_head (s : JSString) (c : Char) (h : (trimStart s).head? = some c) :
    isWhiteSpace c = false := by
  have := List.head?_dropWhile_not isWhiteSpace s
  unfold trimStart at h
  rw [h] at this
  simpa using this

theorem trimEnd_last (s : JSString) (c : Char) (h : (trimEnd s).getLast? = some c) :
    isWhiteSpace c = false := by
  have := List.head?_dropWhile_not isWhiteSpace s.reverse
  unfold trimEnd at h
  rw [List.getLast?_reverse] at h
  rw [h] at this
  simpa using this

theorem trimStart_of_head (s : JSString) (h : ∀ c, s.head? = some c → isWhiteSpace c = false) :
    trimStart s = s := by
  cases s with
  | nil => rfl
  | cons a t =>
    have := h a rfl
    simp [trimStart, List.dropWhile, this]

theorem trimEnd_trimEnd (s : JSString) : trimEnd (trimEnd s) = trimEnd s := by
  simp [trimEnd, List.dropWhile_idempotent]

theorem trim_head (s : JSString) (c : Char) (h : (trim s).head? = some c) :
    isWhiteSpace c = false := by
  obtain ⟨t, ht⟩ := trimEnd_initial (trimStart s)
  apply trimStart_head s c
  unfold trim at h
  rw [← ht]
  cases hte : trimEnd (trimStart s) with
  | nil => rw [hte] at h; simp at h
  | cons a r =>
    rw [hte] at h
    simpa using h

theorem trim_last (s : JSString) (c : Char) (h : (trim s).getLast? = some c) :
    isWhiteSpace c = false :=
  trimEnd_last _ c h

theorem trim_trim (s : JSString) : trim (trim s) = trim s := by
  have h1 : trimStart (trim s) = trim s := trimStart_of_head _ (trim_head s)
  show trimEnd (trimStart (trim s)) = trim s
  rw [h1]
  exact trimEnd_trimEnd (trimStart s)

/-- What a capture of the pattern is like: not empty, with no closing fence
from its second character on, and taken from an input that holds a closing
fence. -/
theorem lazyBody_some (s m : JSString) (h : lazyBody s = some m) :
    (∃ rest, s = m ++ closingFence ++ rest) ∧ m ≠ [] ∧ ¬ closingFence <:+: m.tail := by
  induction s generalizing m with
  | nil => simp [lazyBody] at h
  | cons c cs ih =>
    rw [lazyBody] at h
    split_ifs at h with hp
    · simp only [Option.some.injEq] at h
      subst h
      rw [List.isPrefixOf_iff_prefix] at hp
      obtain ⟨rest, hrest⟩ := hp
      refine ⟨⟨rest, by simp [← hrest]⟩, by simp, ?_⟩
      rintro ⟨a, b, hab⟩
      simp [closingFence] at hab
    · cases hl : lazyBody cs with
      | none => simp [hl] at h
      | some m1 =>
        simp only [hl, Option.map_some', Option.some.injEq] at h
        subst h
        obtain ⟨⟨rest, hrest⟩, hne, htail⟩ := ih m1 hl
        refine ⟨⟨rest, by simp [hrest]⟩, by simp, ?_⟩
        simp only [List.tail_cons]
        intro hin
        obtain ⟨a, t, rfl⟩ := List.exists_cons_of_ne_nil hne
        rcases List.infix_cons_iff.mp hin with hpre | hinf
        · apply hp
          rw [List.isPrefixOf_iff_prefix, hrest]
          exact hpre.trans ⟨closingFence ++ rest, by simp⟩
        · exact htail hinf

theorem lazyBody_some_within (s m : JSString) (h : lazyBody s = some m) :
    closingFence <:+: s := by
  obtain ⟨⟨rest, hrest⟩, -, -⟩ := lazyBody_some s m h
  exact ⟨m, rest, hrest.symm⟩

theorem afterTag_some (s m : JSString) (h : afterTag s = some m) :
    ∃ r, lazyBody r = some m ∧ r <:+ s := by
  unfold afterTag at h
  split at h
  · exact ⟨_, h, List.suffix_cons _ _⟩
  · simp at h

theorem wordsThen_some (s m : JSString) (h : wordsThen s = some m) :
    ∃ r, lazyBody r = some m ∧ r <:+ s := by
  induction s with
  | nil => simp [wordsThen] at h
  | cons c cs ih =>
    rw [wordsThen] at h
    split_ifs at h
    · cases hw : wordsThen cs with
      | some m1 =>
        simp only [hw, Option.some.injEq] at h
        subst h
        obtain ⟨r, hr, hs⟩ := ih hw
        exact ⟨r, hr, hs.trans (List.suffix_cons _ _)⟩
      | none =>
        simp only [hw] at h
        obtain ⟨r, hr, hs⟩ := afterTag_some cs m h
        exact ⟨r, hr, hs.trans (List.suffix_cons _ _)⟩

theorem tagThen_some (s m : JSString) (h : tagThen s = some m) :
    ∃ r, lazyBody r = some m ∧ r <:+ s := by
  unfold tagThen at h
  cases hw : wordsThen s with
  | some m1 =>
    simp only [hw, Option.some.injEq] at h
    subst h
    exact wordsThen_some s m1 hw
  | none =>
    simp only [hw] at h
    exact afterTag_some s m h

theorem matchHere_some (s m : JSString) (h : matchHere s = some m) :
    ∃ r, lazyBody r = some m ∧ r <:+ s := by
  unfold matchHere at h
  split at h
  · obtain ⟨r, hr, hs⟩ := tagThen_some _ m h
    exact ⟨r, hr, hs.trans ⟨['\x60', '\x60', '\x60'], rfl⟩⟩
  · simp at h

theorem codeBlockMatch_some (s m : JSString) (h : codeBlockMatch s = some m) :
    ∃ r, lazyBody r = some m ∧ r <:+ s := by
  induction s with
  | nil => simp [codeBlockMatch] at h
  | cons c cs ih =>
    rw [codeBlockMatch] at h
    split at h
    · rename_i m1 hm
      simp only [Option.some.injEq] at h
      subst h
      exact matchHere_some _ _ hm
    · obtain ⟨r, hr, hs⟩ := ih h
      exact ⟨r, hr, hs.trans (List.suffix_cons _ _)⟩

/-- A text without a closing fence has no match. -/
theorem codeBlockMatch_none (s : JSString) (h : ¬ closingFence <:+: s) :
    codeBlockMatch s = none := by
  cases hm : codeBlockMatch s with
  | none => rfl
  | some m =>
    obtain ⟨r, hr, hs⟩ := codeBlockMatch_some s m hm
    exact absurd ((lazyBody_some_within r m hr).trans hs.isInfix) h

/-- Trimming a capture leaves no closing fence in it. -/
theorem trim_capture_no_closingFence (m : JSString) (h : ¬ closingFence <:+: m.tail) :
    ¬ closingFence <:+: trim m := by
  intro hin
  have h1 : closingFence <:+: trimStart m := hin.trans (trimEnd_initial _).isInfix
  cases m with
  | nil => simp [trimStart, closingFence] at h1
  | cons a t =>
    by_cases hw : isWhiteSpace a = true
    · have : trimStart (a :: t) = trimStart t := by simp [trimStart, List.dropWhile, hw]
      rw [this] at h1
      exact h (h1.trans (trimStart_suffix t).isInfix)
    · have : trimStart (a :: t) = a :: t := by simp [trimStart, List.dropWhile, hw]
      rw [this] at h1
      rcases List.infix_cons_iff.mp h1 with hpre | hinf
      · obtain ⟨r, hr⟩ := hpre
        simp only [closingFence, List.cons_append, List.cons.injEq] at hr
        rw [← hr.1] at hw
        exact hw (by decide)
      · exact h hinf

theorem extractCode_eq_trim (raw : JSString) : ∃ y, extractCode raw = trim y := by
  cases h : codeBlockMatch (trim raw) with
  | none => exact ⟨raw, by simp [extractCode, h]⟩
  | some m =>
    by_cases hm : m = []
    · exact ⟨raw, by simp [extractCode, h, hm]⟩
    · exact ⟨m, by simp [extractCode, h, hm]⟩

/-- C17: the extraction step is idempotent; its result has no white space at
either end; and when the pattern matched, the result holds no line feed
followed by three backticks. -/
theorem C17_extract_idempotent (raw : JSString) :
    extractCode (extractCode raw) = extractCode raw ∧
      (∀ c, (extractCode raw).head? = some c → isWhiteSpace c = false) ∧
      (∀ c, (extractCode raw).getLast? = some c → isWhiteSpace c = false) ∧
      (∀ m, codeBlockMatch (trim raw) = some m → ¬ closingFence <:+: extractCode raw) := by
  have hmatch : ∀ m, codeBlockMatch (trim raw) = some m →
      extractCode raw = trim m ∧ ¬ closingFence <:+: trim m := by
    intro m hm
    obtain ⟨r, hr, -⟩ := codeBlockMatch_some _ m hm
    obtain ⟨-, hne, htail⟩ := lazyBody_some r m hr
    exact ⟨by simp [extractCode, hm, hne], trim_capture_no_closingFence m htail⟩
  refine ⟨?_, ?_, ?_, ?_⟩
  · cases hm : codeBlockMatch (trim raw) with
    | none =>
      have h1 : extractCode raw = trim raw := by simp [extractCode, hm]
      rw [h1]
      simp [extractCode, trim_trim, hm]
    | some m =>
      obtain ⟨h1, h2⟩ := hmatch m hm
      rw [h1]
      simp [extractCode, trim_trim, codeBlockMatch_none _ h2]
  · obtain ⟨y, hy⟩ := extractCode_eq_trim raw
    rw [hy]
    exact trim_head y
  · obtain ⟨y, hy⟩ := extractCode_eq_trim raw
    rw [hy]
    exact trim_last y
  · intro m hm
    rw [(hmatch m hm).1]
    exact (hmatch m hm).2

/-! ## The generate button -/

/-- No event of the page writes the property `disabled` of `#generate-button`. -/
theorem step_generateDisabled (B : Browser) (p : Page) (e : Event) :
    (step B p e).generateDisabled = p.generateDisabled := by
  cases e with
  | clickGenerate =>
    simp only [step]
    split_ifs
    · rfl
    · rfl
  | settle i =>
    simp only [step]
    cases p.inFlight.get? i with
    | none => rfl
    | some g =>
      simp only [generationSettled]
      cases g.outcome <;> rfl

theorem run_generateDisabled (B : Browser) (p : Page) (events : List Event) :
    (run B p events).generateDisabled = p.generateDisabled := by
  induction events generalizing p with
  | nil => rfl
  | cons e rest ih =>
    show (run B (step B p e) rest).generateDisabled = _
    rw [ih, step_generateDisabled]

theorem performAutoGeneration_inFlight (B : Browser) (p : Page) :
    (performAutoGeneration B p).inFlight.length = p.inFlight.length + 1 := by
  simp [performAutoGeneration, showNotification]

theorem performAutoGeneration_requests (B : Browser) (p : Page)
    (h : hasApiKey webStorage p.store = true) :
    (performAutoGeneration B p).requests.length = p.requests.length + 1 := by
  obtain ⟨apiKey, hk, hne⟩ := hasApiKey_eq_true webStorage p.store h
  simp only [performAutoGeneration, showNotification,
    generateCodeSnippet_with_key B.numbers webStorage B.fetch p.store p.languageSelect none
      apiKey hk hne]
  simp

theorem performAutoGeneration_store (B : Browser) (p : Page) :
    (performAutoGeneration B p).store = p.store := rfl

/-- C13, what the code does: a click on the enabled `#generate-button` starts a
generation and leaves the button enabled, so the page is not guarded; a second
click before anything settles starts a second generation (and, with a key
stored, a second request); and no sequence of events ever disables the
button. -/
theorem C13_generate_button_stays_enabled (B : Browser) (p : Page)
    (h : p.generateDisabled = false) :
    (step B p .clickGenerate).generateDisabled = false ∧
      (step B p .clickGenerate).inFlight.length = p.inFlight.length + 1 ∧
      ¬ Guarded (step B p .clickGenerate) ∧
      (step B (step B p .clickGenerate) .clickGenerate).inFlight.length =
        p.inFlight.length + 2 ∧
      (hasApiKey webStorage p.store = true →
        (step B (step B p .clickGenerate) .clickGenerate).requests.length =
          p.requests.length + 2) ∧
      ∀ events, (run B p events).generateDisabled = false := by
  have h1 : step B p .clickGenerate = performAutoGeneration B p := by
    simp [step, h]
  have hd : (performAutoGeneration B p).generateDisabled = false := h
  have h2 : step B (performAutoGeneration B p) .clickGenerate =
      performAutoGeneration B (performAutoGeneration B p) := by
    simp [step, hd]
  rw [h1, h2]
  refine ⟨hd, performAutoGeneration_inFlight B p, ?_, ?_, ?_, ?_⟩
  · intro hg
    have hne : (performAutoGeneration B p).inFlight ≠ [] := by
      intro hnil
      have := performAutoGeneration_inFlight B p
      rw [hnil] at this
      simp at this
    have := hg hne
    rw [hd] at this
    cases this
  · rw [performAutoGeneration_inFlight, performAutoGeneration_inFlight]
  · intro hk
    rw [performAutoGeneration_requests B _ (by rw [performAutoGeneration_store]; exact hk),
      performAutoGeneration_requests B p hk]
  · intro events
    rw [run_generateDisabled, h]

/-- C13, at the idle page with a key stored: two clicks in a row leave two
generations and two requests in flight and the button enabled; and after a
rejected generation the button is as enabled as before. -/
theorem C13_generate_button_stays_enabled_witness :
    (run sampleBrowser idlePage [.clickGenerate, .clickGenerate]).inFlight.length = 2 ∧
      (run sampleBrowser idlePage [.clickGenerate, .clickGenerate]).requests.length = 2 ∧
      (run sampleBrowser idlePage [.clickGenerate, .clickGenerate]).generateDisabled = false ∧
      (run refusingBrowser idlePage [.clickGenerate, .settle 0]).generateDisabled = false :=
  have h := C13_generate_button_stays_enabled sampleBrowser idlePage rfl
  have h2 := C13_generate_button_stays_enabled refusingBrowser idlePage rfl
  ⟨h.2.2.2.1, h.2.2.2.2.1 rfl, h.2.2.2.2.2 _, h2.2.2.2.2.2 _⟩

/-- The sibling handler does what the generate button does not: the click on
`#generate-code-button` disables it, a click on the disabled button starts
nothing, and a rejected generation enables it again. -/
theorem modal_button_guarded (B : Browser) (p : Page) (m : GenerateModal)
    (h : m.buttonDisabled = false) :
    (modalGenerateClick B p m).2.buttonDisabled = true ∧
      modalGenerateClick B (modalGenerateClick B p m).1 (modalGenerateClick B p m).2 =
        modalGenerateClick B p m ∧
      ∀ (q : Page) (language : JSString) (e : JSError) (m1 : GenerateModal),
        m1.pending = some (language, .error e) →
          (modalGenerationSettled B q m1).2.buttonDisabled = false := by
  refine ⟨by simp [modalGenerateClick, h], by simp [modalGenerateClick, h], ?_⟩
  intro q language e m1 hp
  simp [modalGenerationSettled, hp]

end CodeSnippetWidget
